import Mathlib

/-!
# sqlcgrep.New: a shallow embedding

`New` (src/sqlcgrep/sqlcgrep.go) parses a YAML document into a `Configuration`,
applies the caller's options, and then walks every `Replace` entry of every
`Package`: it opens the entry's file, builds the list of `regenerate` steps and
hands that list to `regenerate.Pipe`.

The embedding is explicit state passing over a `World` (file system, open file
handles, standard error, and a log of the calls made to the collaborators).
The collaborators that live outside the repository (YAML parser, path join,
`%q` quoting, regexp compiler and engine, formatter) are fields of `Env`.
-/

namespace sqlcgrep

/-! ## Data model (lines 75-111 of sqlcgrep.go) -/

/-- Go type `String` of the source (a literal rule); renamed because the name
is taken by the string type. -/
structure StringRule where
  Match : String
  Replacement : String
  deriving DecidableEq, Repr

/-- Go type `Regexp` of the source (a regular-expression rule). -/
structure Regexp where
  Match : String
  Replacement : String
  deriving DecidableEq, Repr

structure Replace where
  File : String
  Strings : List StringRule
  Regexps : List Regexp
  deriving DecidableEq, Repr

structure Package where
  Regenerates : List Replace
  deriving DecidableEq, Repr

/-- Stand-in for `imports.Options` of golang.org/x/tools; `New` only tests the
pointer against nil and passes it on, so the fields play no role. -/
structure ImportsOptions where
  tag : Nat
  deriving DecidableEq, Repr

/-- The field `gofmt` is a pointer in the source: `none` is the nil pointer. -/
structure Configuration where
  Packages : List Package
  directory : String
  gofmt : Option ImportsOptions
  deriving DecidableEq, Repr

/-- Go type `Option` of the source, `func(*Configuration)`: a mutation of the
configuration, here a function from the old value to the new one. -/
abbrev ConfigOption := Configuration → Configuration

def WithDirectory (dir : String) : ConfigOption :=
  fun c => { c with directory := dir }

def WithGofmt (opts : Option ImportsOptions) : ConfigOption :=
  fun c => { c with gofmt := opts }

/-! ## Collaborators -/

/-- Value of type `*regexp.Regexp`: a pattern that compiled. -/
structure CompiledRegexp where
  expr : String
  deriving DecidableEq, Repr

/-- Value of type `regenerate.Option`, one transform handed to `regenerate.Pipe`;
the constructors are the three functions of package `regenerate` that `New` calls. -/
inductive Step where
  | ReplaceString (old new : String)
  | ReplaceRegexp (re : CompiledRegexp) (repl : String)
  | WithGofmt (opts : ImportsOptions)
  deriving DecidableEq, Repr

/-- Functions of other packages that `New` calls. -/
structure Env where
  /-- Function `yaml.Unmarshal` into a zero `Configuration`: only the exported
  field `Packages` can be set by the parser. -/
  unmarshal : String → Except String (List Package)
  /-- Function `filepath.Join` of two elements. -/
  join : String → String → String
  /-- The `%q` verb of package `fmt`. -/
  quote : String → String
  /-- Function `regexp.Compile`. -/
  compile : String → Except String CompiledRegexp
  /-- Method `ReplaceAll` of a compiled regexp (source text, then replacement
  template). -/
  replaceAllRegexp : CompiledRegexp → String → String → String
  /-- Function `imports.Process`, the formatter. -/
  format : ImportsOptions → String → Except String String
  /-- Whether `regenerate.Pipe` closes the file it is handed, given what the
  handle reads and the steps (package `regenerate` is not under src/ and the
  spec does not say). -/
  pipeCloses : String → List Step → Bool

/-! ## State -/

/-- What a path names: nothing, something `os.OpenFile` refuses with an error
other than not-exist (a directory, a file without permission), or a file. -/
inductive Node where
  | missing
  | unopenable (err : String)
  | file (content : String)
  deriving DecidableEq, Repr

/-- A call made to a collaborator. -/
inductive Event where
  | OpenFile (path : String)
  | Compile (pattern : String)
  | Pipe (path : String) (regenerates : List Step)
  deriving DecidableEq, Repr

structure World where
  files : String → Node
  /-- Open file handles, one entry (the path) per handle, oldest first. -/
  handles : List String
  /-- Lines written to standard error. -/
  stderr : List String
  /-- Calls made so far, oldest first. -/
  trace : List Event

/-- The error a collaborator returned, by the package it came from. -/
inductive Cause where
  | yaml (msg : String)
  | os (msg : String)
  | regexp (msg : String)
  | pipe (msg : String)
  deriving DecidableEq, Repr

/-- Result of `fmt.Errorf(label + ": %w", cause)`; `wraps` is false for the
`%s` verb of line 67. -/
structure GoError where
  label : String
  cause : Cause
  wraps : Bool
  deriving DecidableEq, Repr

def setFile (files : String → Node) (path : String) (n : Node) : String → Node :=
  fun p => if p = path then n else files p

/-! ## The replacement engine -/

/-- Modelled from the spec: the scan of a literal replacement (package
`regenerate` is not under src/). Section 3: "exact substring replacement, all
non-overlapping occurrences replaced left to right". The counter is the number
of characters of the current occurrence still to be dropped. -/
def replaceScan (old new : List Char) : Nat → List Char → List Char
  | _, [] => []
  | skip + 1, _ :: cs => replaceScan old new skip cs
  | 0, c :: cs =>
    if old.isPrefixOf (c :: cs) then new ++ replaceScan old new (old.length - 1) cs
    else c :: replaceScan old new 0 cs

/-- Modelled from the spec: literal replacement of every occurrence (package
`regenerate` is not under src/). An empty match text occurs before every
character and at the end, as in `strings.ReplaceAll`. -/
def replaceAll (s old new : String) : String :=
  if old.data = [] then String.mk (new.data ++ s.data.flatMap (fun c => c :: new.data))
  else String.mk (replaceScan old.data new.data 0 s.data)

/-- Modelled from the spec: one step of the replacement engine (package
`regenerate` is not under src/), section 4.3: a literal rule, a regex rule,
or the formatter, which may fail. -/
def applyStep (env : Env) (content : String) : Step → Except String String
  | Step.ReplaceString old new => Except.ok (replaceAll content old new)
  | Step.ReplaceRegexp re repl => Except.ok (env.replaceAllRegexp re content repl)
  | Step.WithGofmt opts => env.format opts content

/-- Modelled from the spec: the replacement engine (package `regenerate` is not
under src/), section 4.3: each step works on the output of the previous one and
the first failure aborts. -/
def Apply (env : Env) : String → List Step → Except String String
  | content, [] => Except.ok content
  | content, s :: rest =>
    match applyStep env content s with
    | Except.error e => Except.error e
    | Except.ok out => Apply env out rest

/-- Modelled from the spec: `regenerate.Pipe(f, f, regenerates...)` (package
`regenerate` is not under src/), section 4.4 steps 4 and 5: the full content
read from the handle goes through the engine and the returned bytes are written
back to the same file, replacing its previous content; when the engine fails
nothing is written. `content` is what the handle on `path` reads. -/
def Pipe (env : Env) (files : String → Node) (path content : String)
    (regenerates : List Step) : (String → Node) × Option String :=
  match Apply env content regenerates with
  | Except.error e => (files, some e)
  | Except.ok out => (setFile files path (Node.file out), none)

/-! ## New (lines 19-73 of sqlcgrep.go) -/

/-- Lines 50-59: the loop over `replace.Regexps`. Each pattern is compiled; the
first failure returns, otherwise the step is appended to `regenerates`. The
event list records the calls to `regexp.Compile`. -/
def rangeRegexps (env : Env) :
    List Regexp → List Step → List Event → List Event × Except String (List Step)
  | [], regenerates, tr => (tr, Except.ok regenerates)
  | rep :: rest, regenerates, tr =>
    match env.compile rep.Match with
    | Except.error e => (tr ++ [Event.Compile rep.Match], Except.error e)
    | Except.ok re =>
      rangeRegexps env rest (regenerates ++ [Step.ReplaceRegexp re rep.Replacement])
        (tr ++ [Event.Compile rep.Match])

/-- Lines 33-68: the body of the inner loop for one `Replace`. The result is
the new state and `some err` when the body returns `err` from `New`; `none`
covers both `continue` and falling off the end of the body. The body itself
never closes `f`: the handle it opened leaves `handles` only when
`regenerate.Pipe` closes it (`w4`). -/
def body (env : Env) (cfg : Configuration) (w : World) (replace : Replace) :
    World × Option GoError :=
  let path := env.join cfg.directory replace.File
  let w1 : World := { w with trace := w.trace ++ [Event.OpenFile path] }
  match w.files path with
  | Node.missing =>
    ({ w1 with stderr := w1.stderr ++ ["File " ++ env.quote replace.File ++ " not exist.\n"] },
      none)
  | Node.unopenable e => (w1, some ⟨"regexp compile", Cause.os e, true⟩)
  | Node.file content =>
    let w2 : World := { w1 with handles := w1.handles ++ [path] }
    let regenerates : List Step :=
      replace.Strings.map (fun rep => Step.ReplaceString rep.Match rep.Replacement)
    match rangeRegexps env replace.Regexps regenerates w2.trace with
    | (tr, Except.error e) =>
      ({ w2 with trace := tr }, some ⟨"regexp compile", Cause.regexp e, true⟩)
    | (tr, Except.ok regenerates) =>
      let regenerates : List Step :=
        match cfg.gofmt with
        | some opts => regenerates ++ [Step.WithGofmt opts]
        | none => regenerates
      let w3 : World := { w2 with trace := tr ++ [Event.Pipe path regenerates] }
      let w4 : World :=
        if env.pipeCloses content regenerates then { w3 with handles := w.handles } else w3
      match Pipe env w3.files path content regenerates with
      | (files, some e) =>
        ({ w4 with files := files }, some ⟨"regenerate pipe", Cause.pipe e, false⟩)
      | (files, none) => ({ w4 with files := files }, none)

/-- Lines 32-69: the loop over the `Replace` entries of one package. -/
def rangeRegenerates (env : Env) (cfg : Configuration) :
    World → List Replace → World × Option GoError
  | w, [] => (w, none)
  | w, replace :: rest =>
    match body env cfg w replace with
    | (w1, some err) => (w1, some err)
    | (w1, none) => rangeRegenerates env cfg w1 rest

/-- Lines 31-70: the loop over the packages. -/
def rangePackages (env : Env) (cfg : Configuration) :
    World → List Package → World × Option GoError
  | w, [] => (w, none)
  | w, pkg :: rest =>
    match rangeRegenerates env cfg w pkg.Regenerates with
    | (w1, some err) => (w1, some err)
    | (w1, none) => rangePackages env cfg w1 rest

/-- Lines 27-29: the options are applied in the order supplied. -/
def applyOptions (cfg : Configuration) (opts : List ConfigOption) : Configuration :=
  opts.foldl (fun c opt => opt c) cfg

/-- Lines 19-73. The result is the state `New` leaves behind and the error it
returns (`none` is nil). -/
def New (env : Env) (yml : String) (opts : List ConfigOption) (w : World) :
    World × Option GoError :=
  match env.unmarshal yml with
  | Except.error e => (w, some ⟨"unmarshal yaml", Cause.yaml e, true⟩)
  | Except.ok pkgs =>
    let cfg := applyOptions { Packages := pkgs, directory := "", gofmt := none } opts
    rangePackages env cfg w cfg.Packages

/-! ## Derived notions used in the statements -/

/-- The path line 33 opens for an entry. -/
def resolved (env : Env) (cfg : Configuration) (replace : Replace) : String :=
  env.join cfg.directory replace.File

/-- The entries in flattened declaration order: packages in order, entries
within a package in order. -/
def entries (cfg : Configuration) : List Replace :=
  cfg.Packages.flatMap Package.Regenerates

/-- The configuration `New` works with: the parsed packages, a zero directory
and a nil formatter, then the options (lines 20-29). -/
def configure (pkgs : List Package) (opts : List ConfigOption) : Configuration :=
  applyOptions { Packages := pkgs, directory := "", gofmt := none } opts

/-- The paths of the `os.OpenFile` calls of a log, in order. -/
def opened : List Event → List String
  | [] => []
  | Event.OpenFile path :: rest => path :: opened rest
  | _ :: rest => opened rest

def Node.isFile : Node → Bool
  | Node.file _ => true
  | _ => false

/-- The literal steps of an entry (lines 44-48). -/
def stringSteps (replace : Replace) : List Step :=
  replace.Strings.map (fun rep => Step.ReplaceString rep.Match rep.Replacement)

/-- The regex steps of an entry once every pattern is compiled (lines 50-59). -/
def regexpSteps (compiled : String → CompiledRegexp) (replace : Replace) : List Step :=
  replace.Regexps.map (fun rep => Step.ReplaceRegexp (compiled rep.Match) rep.Replacement)

/-- The formatter step (lines 61-63): present exactly when `gofmt` is not nil. -/
def gofmtSteps (cfg : Configuration) : List Step :=
  match cfg.gofmt with
  | some opts => [Step.WithGofmt opts]
  | none => []

/-- The literal rules applied one after the other, each on the output of the
previous one. -/
def applyStrings (content : String) (rules : List StringRule) : String :=
  rules.foldl (fun c rep => replaceAll c rep.Match rep.Replacement) content

/-- The regex rules applied one after the other, each on the output of the
previous one. -/
def applyRegexps (env : Env) (compiled : String → CompiledRegexp) (content : String)
    (rules : List Regexp) : String :=
  rules.foldl (fun c rep => env.replaceAllRegexp (compiled rep.Match) c rep.Replacement) content

/-- The calls to `regexp.Compile` for a list of rules. -/
def compileEvents (rules : List Regexp) : List Event :=
  rules.map (fun rep => Event.Compile rep.Match)

/-! ## Lists of options built with the two constructors -/

/-- One call of `WithDirectory` or of `WithGofmt`, as data. -/
inductive OptionCall where
  | directory (dir : String)
  | gofmt (opts : Option ImportsOptions)

/-- The option a call builds. -/
def OptionCall.option : OptionCall → ConfigOption
  | OptionCall.directory dir => WithDirectory dir
  | OptionCall.gofmt opts => WithGofmt opts

def OptionCall.dir? : OptionCall → Option String
  | OptionCall.directory dir => some dir
  | OptionCall.gofmt _ => none

/-- Following the claim: the directory given by the last `WithDirectory` of the
list, the empty string when the list has none. -/
def lastDirectory (calls : List OptionCall) : String :=
  ((calls.filterMap OptionCall.dir?).getLast?).getD ""

/-! ## A small environment for concrete runs -/

/-- Join for clean path elements. -/
def demoJoin (dir file : String) : String :=
  if dir = "" then file else dir ++ "/" ++ file

/-- Only the pattern `(` fails to compile. -/
def demoCompile (pattern : String) : Except String CompiledRegexp :=
  if pattern = "(" then Except.error "missing closing )" else Except.ok ⟨pattern⟩

def docTodo : String :=
  "packages:\n  - regenerates:\n      - file: x.go\n        strings:\n          - match: \"// TODO\"\n            replacement: \"// DONE\"\n"

def docEmptyRules : String :=
  "packages:\n  - regenerates:\n      - file: x.go\n"

def docBadRegexp : String :=
  "packages:\n  - regenerates:\n      - file: x.go\n        regexps:\n          - match: \"(\"\n            replacement: \"\"\n"

def docTwoFiles : String :=
  "packages:\n  - regenerates:\n      - file: a.go\n        strings:\n          - match: \"a\"\n            replacement: \"b\"\n  - regenerates:\n      - file: x.go\n        regexps:\n          - match: \"(\"\n            replacement: \"\"\n"

def docBoth : String :=
  "packages:\n  - regenerates:\n      - file: x.go\n        strings:\n          - match: \"// TODO\"\n            replacement: \"// DONE\"\n        regexps:\n          - match: \"func\"\n            replacement: \"fn\"\n"

def pkgsBoth : List Package :=
  [⟨[⟨"x.go", [⟨"// TODO", "// DONE"⟩], [⟨"func", "fn"⟩]⟩]⟩]

def docGhost : String :=
  "packages:\n  - regenerates:\n      - file: ghost.go\n        regexps:\n          - match: \"(\"\n            replacement: \"\"\n      - file: x.go\n        strings:\n          - match: \"// TODO\"\n            replacement: \"// DONE\"\n"

def pkgsGhost : List Package :=
  [⟨[⟨"ghost.go", [], [⟨"(", ""⟩]⟩, ⟨"x.go", [⟨"// TODO", "// DONE"⟩], []⟩]⟩]

def pkgsTodo : List Package :=
  [⟨[⟨"x.go", [⟨"// TODO", "// DONE"⟩], []⟩]⟩]

def pkgsEmptyRules : List Package :=
  [⟨[⟨"x.go", [], []⟩]⟩]

def pkgsBadRegexp : List Package :=
  [⟨[⟨"x.go", [], [⟨"(", ""⟩]⟩]⟩]

def pkgsTwoFiles : List Package :=
  [⟨[⟨"a.go", [⟨"a", "b"⟩], []⟩]⟩, ⟨[⟨"x.go", [], [⟨"(", ""⟩]⟩]⟩]

/-- The parser on the documents above; every other text is refused. -/
def demoUnmarshal (yml : String) : Except String (List Package) :=
  if yml = docTodo then Except.ok pkgsTodo
  else if yml = docEmptyRules then Except.ok pkgsEmptyRules
  else if yml = docBadRegexp then Except.ok pkgsBadRegexp
  else if yml = docTwoFiles then Except.ok pkgsTwoFiles
  else if yml = docBoth then Except.ok pkgsBoth
  else if yml = docGhost then Except.ok pkgsGhost
  else Except.error "unexpected document"

def demoEnv : Env where
  unmarshal := demoUnmarshal
  join := demoJoin
  quote := fun s => "\"" ++ s ++ "\""
  compile := demoCompile
  replaceAllRegexp := fun re src repl => replaceAll src re.expr repl
  format := fun _ src => Except.ok src
  pipeCloses := fun _ _ => false

/-- A file system with `x.go` and `a.go`, and a path that cannot be opened. -/
def demoFiles : String → Node :=
  fun p =>
    if p = "x.go" then Node.file "// TODO\nfunc f()\x7b\x7d"
    else if p = "a.go" then Node.file "aaa"
    else if p = "locked/x.go" then Node.unopenable "open locked/x.go: permission denied"
    else Node.missing

def demoWorld : World :=
  { files := demoFiles, handles := [], stderr := [], trace := [] }

/-- The small environment with a `regenerate.Pipe` that closes its file. -/
def closingEnv : Env :=
  { demoEnv with pipeCloses := fun _ _ => true }

/-- Nothing exists. -/
def emptyWorld : World :=
  { files := fun _ => Node.missing, handles := [], stderr := [], trace := [] }

/-- A node with its content erased: what `os.OpenFile` can tell apart. -/
def Node.skeleton : Node → Node
  | Node.file _ => Node.file ""
  | n => n

/-! ## The loop over the regexps -/

theorem opened_append (a b : List Event) : opened (a ++ b) = opened a ++ opened b := by
  induction a with
  | nil => rfl
  | cons x xs ih => cases x <;> simp [opened, ih]

theorem opened_compileEvents (rules : List Regexp) : opened (compileEvents rules) = [] := by
  induction rules with
  | nil => rfl
  | cons r rs ih => simpa [compileEvents, opened] using ih

theorem rangeRegexps_ok (env : Env) (compiled : String → CompiledRegexp) :
    ∀ (rules : List Regexp) (acc : List Step) (tr : List Event),
      (∀ rep ∈ rules, env.compile rep.Match = Except.ok (compiled rep.Match)) →
      rangeRegexps env rules acc tr =
        (tr ++ compileEvents rules,
          Except.ok (acc ++ rules.map
            (fun rep => Step.ReplaceRegexp (compiled rep.Match) rep.Replacement))) := by
  intro rules
  induction rules with
  | nil => intro acc tr _; simp [rangeRegexps, compileEvents]
  | cons r rs ih =>
    intro acc tr h
    have hr := h r (List.mem_cons_self r rs)
    have hrs : ∀ rep ∈ rs, env.compile rep.Match = Except.ok (compiled rep.Match) :=
      fun rep hrep => h rep (List.mem_cons_of_mem r hrep)
    simp only [rangeRegexps, hr]
    rw [ih _ _ hrs]
    simp [compileEvents]

theorem rangeRegexps_fail (env : Env) (compiled : String → CompiledRegexp)
    (bad : Regexp) (rest : List Regexp) (msg : String)
    (hbad : env.compile bad.Match = Except.error msg) :
    ∀ (good : List Regexp) (acc : List Step) (tr : List Event),
      (∀ rep ∈ good, env.compile rep.Match = Except.ok (compiled rep.Match)) →
      rangeRegexps env (good ++ bad :: rest) acc tr =
        (tr ++ compileEvents (good ++ [bad]), Except.error msg) := by
  intro good
  induction good with
  | nil => intro acc tr _; simp [rangeRegexps, hbad, compileEvents]
  | cons r rs ih =>
    intro acc tr h
    have hr := h r (List.mem_cons_self r rs)
    have hrs : ∀ rep ∈ rs, env.compile rep.Match = Except.ok (compiled rep.Match) :=
      fun rep hrep => h rep (List.mem_cons_of_mem r hrep)
    have step : rangeRegexps env (r :: (rs ++ bad :: rest)) acc tr =
        rangeRegexps env (rs ++ bad :: rest)
          (acc ++ [Step.ReplaceRegexp (compiled r.Match) r.Replacement])
          (tr ++ [Event.Compile r.Match]) := by
      simp only [rangeRegexps, hr]
    rw [List.cons_append, step, ih _ _ hrs]
    simp [compileEvents]

/-- The log of the loop grows by calls to the compiler only. -/
theorem rangeRegexps_events (env : Env) :
    ∀ (rules : List Regexp) (acc : List Step) (tr : List Event),
      ∃ k, (rangeRegexps env rules acc tr).1 = tr ++ compileEvents (rules.take k) := by
  intro rules
  induction rules with
  | nil => intro acc tr; exact ⟨0, by simp [rangeRegexps, compileEvents]⟩
  | cons r rs ih =>
    intro acc tr
    cases hc : env.compile r.Match with
    | error e => exact ⟨1, by simp [rangeRegexps, hc, compileEvents]⟩
    | ok re =>
      obtain ⟨k, hk⟩ := ih (acc ++ [Step.ReplaceRegexp re r.Replacement])
        (tr ++ [Event.Compile r.Match])
      exact ⟨k + 1, by simp [rangeRegexps, hc, hk, compileEvents]⟩

/-- The outcome of the loop does not depend on the log. -/
theorem rangeRegexps_result (env : Env) :
    ∀ (rules : List Regexp) (acc : List Step) (tr tr2 : List Event),
      (rangeRegexps env rules acc tr).2 = (rangeRegexps env rules acc tr2).2 := by
  intro rules
  induction rules with
  | nil => intro acc tr tr2; rfl
  | cons r rs ih =>
    intro acc tr tr2
    cases hc : env.compile r.Match with
    | error e => simp [rangeRegexps, hc]
    | ok re => simp only [rangeRegexps, hc]; exact ih _ _ _

/-- A pattern that does not compile makes the loop fail. -/
theorem rangeRegexps_error_of_mem (env : Env) (bad : Regexp) (msg : String)
    (hbad : env.compile bad.Match = Except.error msg) :
    ∀ (rules : List Regexp) (acc : List Step) (tr : List Event), bad ∈ rules →
      ∃ m, (rangeRegexps env rules acc tr).2 = Except.error m := by
  intro rules
  induction rules with
  | nil => intro acc tr h; simp at h
  | cons r rs ih =>
    intro acc tr h
    cases hc : env.compile r.Match with
    | error e => exact ⟨e, by simp [rangeRegexps, hc]⟩
    | ok re =>
      have hmem : bad ∈ rs := by
        rcases List.mem_cons.mp h with h1 | h1
        · subst h1; rw [hbad] at hc; cases hc
        · exact h1
      obtain ⟨m, hm⟩ := ih (acc ++ [Step.ReplaceRegexp re r.Replacement])
        (tr ++ [Event.Compile r.Match]) hmem
      exact ⟨m, by simp only [rangeRegexps, hc]; exact hm⟩

/-- A failure of the loop is the compile error of one of the patterns. -/
theorem rangeRegexps_error_mem (env : Env) (msg : String) :
    ∀ (rules : List Regexp) (acc : List Step) (tr : List Event),
      (rangeRegexps env rules acc tr).2 = Except.error msg →
      ∃ bad ∈ rules, env.compile bad.Match = Except.error msg := by
  intro rules
  induction rules with
  | nil => intro acc tr h; simp [rangeRegexps] at h
  | cons r rs ih =>
    intro acc tr h
    cases hc : env.compile r.Match with
    | error e =>
      simp only [rangeRegexps, hc] at h
      cases h
      exact ⟨r, List.mem_cons_self r rs, hc⟩
    | ok re =>
      simp only [rangeRegexps, hc] at h
      obtain ⟨b, hb, hb2⟩ := ih _ _ h
      exact ⟨b, List.mem_cons_of_mem r hb, hb2⟩

/-! ## The pipe -/

theorem Pipe_other (env : Env) (files : String → Node) (path content : String)
    (steps : List Step) (p : String) (hp : p ≠ path) :
    (Pipe env files path content steps).1 p = files p := by
  unfold Pipe
  cases Apply env content steps with
  | error e => rfl
  | ok out => simp [setFile, hp]

theorem Pipe_skeleton (env : Env) (files : String → Node) (path content : String)
    (steps : List Step) (hf : files path = Node.file content) (p : String) :
    ((Pipe env files path content steps).1 p).skeleton = (files p).skeleton := by
  unfold Pipe
  cases Apply env content steps with
  | error e => rfl
  | ok out =>
    by_cases hp : p = path
    · subst hp; simp [setFile, hf, Node.skeleton]
    · simp [setFile, hp]

theorem Pipe_ok (env : Env) (files : String → Node) (path content out : String)
    (steps : List Step) (h : Apply env content steps = Except.ok out) :
    Pipe env files path content steps = (setFile files path (Node.file out), none) := by
  simp [Pipe, h]

/-! ## One entry -/

theorem body_missing (env : Env) (cfg : Configuration) (w : World) (e : Replace)
    (h : w.files (resolved env cfg e) = Node.missing) :
    body env cfg w e =
      ({ w with
          trace := w.trace ++ [Event.OpenFile (resolved env cfg e)],
          stderr := w.stderr ++ ["File " ++ env.quote e.File ++ " not exist.\n"] }, none) := by
  simp only [resolved] at h
  simp [body, h, resolved]

theorem body_unopenable (env : Env) (cfg : Configuration) (w : World) (e : Replace)
    (msg : String) (h : w.files (resolved env cfg e) = Node.unopenable msg) :
    body env cfg w e =
      ({ w with trace := w.trace ++ [Event.OpenFile (resolved env cfg e)] },
        some ⟨"regexp compile", Cause.os msg, true⟩) := by
  simp only [resolved] at h
  simp [body, h, resolved]

theorem body_compile_error (env : Env) (cfg : Configuration) (w : World) (e : Replace)
    (content msg : String) (tr : List Event)
    (hf : w.files (resolved env cfg e) = Node.file content)
    (hc : rangeRegexps env e.Regexps (stringSteps e)
      (w.trace ++ [Event.OpenFile (resolved env cfg e)]) = (tr, Except.error msg)) :
    body env cfg w e =
      ({ w with trace := tr, handles := w.handles ++ [resolved env cfg e] },
        some ⟨"regexp compile", Cause.regexp msg, true⟩) := by
  simp only [resolved, stringSteps] at hf hc
  simp [body, hf, hc, resolved]

theorem body_pipe (env : Env) (cfg : Configuration) (w : World) (e : Replace)
    (content : String) (tr : List Event) (steps : List Step)
    (hf : w.files (resolved env cfg e) = Node.file content)
    (hc : rangeRegexps env e.Regexps (stringSteps e)
      (w.trace ++ [Event.OpenFile (resolved env cfg e)]) = (tr, Except.ok steps)) :
    body env cfg w e =
      ({ w with
          trace := tr ++ [Event.Pipe (resolved env cfg e) (steps ++ gofmtSteps cfg)],
          handles :=
            if env.pipeCloses content (steps ++ gofmtSteps cfg) then w.handles
            else w.handles ++ [resolved env cfg e],
          files := (Pipe env w.files (resolved env cfg e) content (steps ++ gofmtSteps cfg)).1 },
        (Pipe env w.files (resolved env cfg e) content (steps ++ gofmtSteps cfg)).2.map
          (fun m => ⟨"regenerate pipe", Cause.pipe m, false⟩)) := by
  simp only [resolved, stringSteps] at hf hc
  cases hg : cfg.gofmt with
  | none =>
    simp only [body, hf, hc, hg, gofmtSteps, resolved, List.append_nil]
    rcases hp : Pipe env w.files (env.join cfg.directory e.File) content steps with ⟨fs, _ | m⟩ <;>
      cases hcl : env.pipeCloses content steps <;> simp
  | some opts =>
    simp only [body, hf, hc, hg, gofmtSteps, resolved]
    rcases hp : Pipe env w.files (env.join cfg.directory e.File) content
      (steps ++ [Step.WithGofmt opts]) with ⟨fs, _ | m⟩ <;>
      cases hcl : env.pipeCloses content (steps ++ [Step.WithGofmt opts]) <;> simp

/-- The four ways through the body of the loop. -/
theorem body_cases (env : Env) (cfg : Configuration) (w : World) (e : Replace) :
    (w.files (resolved env cfg e) = Node.missing ∧
      body env cfg w e =
        ({ w with
            trace := w.trace ++ [Event.OpenFile (resolved env cfg e)],
            stderr := w.stderr ++ ["File " ++ env.quote e.File ++ " not exist.\n"] }, none)) ∨
    (∃ msg, w.files (resolved env cfg e) = Node.unopenable msg ∧
      body env cfg w e =
        ({ w with trace := w.trace ++ [Event.OpenFile (resolved env cfg e)] },
          some ⟨"regexp compile", Cause.os msg, true⟩)) ∨
    (∃ content msg k, w.files (resolved env cfg e) = Node.file content ∧
      (∃ bad ∈ e.Regexps, env.compile bad.Match = Except.error msg) ∧
      body env cfg w e =
        ({ w with
            trace := w.trace ++ [Event.OpenFile (resolved env cfg e)] ++
              compileEvents (e.Regexps.take k),
            handles := w.handles ++ [resolved env cfg e] },
          some ⟨"regexp compile", Cause.regexp msg, true⟩)) ∨
    (∃ content steps k, w.files (resolved env cfg e) = Node.file content ∧
      body env cfg w e =
        ({ w with
            trace := w.trace ++ [Event.OpenFile (resolved env cfg e)] ++
              compileEvents (e.Regexps.take k) ++
              [Event.Pipe (resolved env cfg e) (steps ++ gofmtSteps cfg)],
            handles :=
              if env.pipeCloses content (steps ++ gofmtSteps cfg) then w.handles
              else w.handles ++ [resolved env cfg e],
            files := (Pipe env w.files (resolved env cfg e) content (steps ++ gofmtSteps cfg)).1 },
          (Pipe env w.files (resolved env cfg e) content (steps ++ gofmtSteps cfg)).2.map
            (fun m => ⟨"regenerate pipe", Cause.pipe m, false⟩))) := by
  cases hf : w.files (resolved env cfg e) with
  | missing => exact Or.inl ⟨rfl, body_missing env cfg w e hf⟩
  | unopenable msg => exact Or.inr (Or.inl ⟨msg, rfl, body_unopenable env cfg w e msg hf⟩)
  | file content =>
    obtain ⟨k, hk⟩ := rangeRegexps_events env e.Regexps (stringSteps e)
      (w.trace ++ [Event.OpenFile (resolved env cfg e)])
    rcases hc : rangeRegexps env e.Regexps (stringSteps e)
      (w.trace ++ [Event.OpenFile (resolved env cfg e)]) with ⟨tr, msg | steps⟩
    · have hmem := rangeRegexps_error_mem env msg e.Regexps (stringSteps e)
        (w.trace ++ [Event.OpenFile (resolved env cfg e)]) (by rw [hc])
      rw [hc] at hk
      simp only at hk
      subst hk
      exact Or.inr (Or.inr (Or.inl ⟨content, msg, k, rfl, hmem,
        body_compile_error env cfg w e content msg _ hf hc⟩))
    · rw [hc] at hk
      simp only at hk
      subst hk
      exact Or.inr (Or.inr (Or.inr ⟨content, steps, k, rfl,
        body_pipe env cfg w e content _ steps hf hc⟩))

theorem Node.isFile_skeleton (n : Node) : n.skeleton.isFile = n.isFile := by
  cases n <;> rfl

theorem Node.skeleton_missing (n : Node) : n.skeleton = Node.missing ↔ n = Node.missing := by
  cases n <;> simp [Node.skeleton]

/-- The handles after the body: those before it, then the handle it opened
unless `regenerate.Pipe` closed it. After a compile failure the handle is open. -/
theorem body_handles (env : Env) (cfg : Configuration) (w : World) (e : Replace) :
    ∃ keep, (body env cfg w e).1.handles = w.handles ++ keep ∧
      keep.Sublist
        (if (w.files (resolved env cfg e)).isFile then [resolved env cfg e] else []) ∧
      ((∀ c s, env.pipeCloses c s = false) →
        keep = if (w.files (resolved env cfg e)).isFile then [resolved env cfg e] else []) ∧
      (∀ label m wr, (body env cfg w e).2 = some ⟨label, Cause.regexp m, wr⟩ →
        keep = [resolved env cfg e]) := by
  rcases body_cases env cfg w e with ⟨hf, hb⟩ | ⟨msg, hf, hb⟩ | ⟨content, msg, k, hf, _, hb⟩ |
    ⟨content, steps, k, hf, hb⟩
  · rw [hb]
    exact ⟨[], by simp, by simp [hf, Node.isFile], by simp [hf, Node.isFile], by simp⟩
  · rw [hb]
    exact ⟨[], by simp, by simp [hf, Node.isFile], by simp [hf, Node.isFile], by simp⟩
  · rw [hb]
    exact ⟨[resolved env cfg e], rfl, by simp [hf, Node.isFile], by simp [hf, Node.isFile],
      by simp⟩
  · rw [hb]
    have hnot : ∀ label m wr,
        (Pipe env w.files (resolved env cfg e) content (steps ++ gofmtSteps cfg)).2.map
          (fun m => (⟨"regenerate pipe", Cause.pipe m, false⟩ : GoError)) =
          some ⟨label, Cause.regexp m, wr⟩ → False := by
      intro label m wr h
      rcases hp : (Pipe env w.files (resolved env cfg e) content
        (steps ++ gofmtSteps cfg)).2 with _ | m2
      · rw [hp] at h; simp at h
      · rw [hp] at h; simp at h
    cases hcl : env.pipeCloses content (steps ++ gofmtSteps cfg) with
    | false =>
      refine ⟨[resolved env cfg e], by simp, by simp [hf, Node.isFile],
        by simp [hf, Node.isFile], ?_⟩
      intro label m wr h
      exact absurd h (fun h2 => hnot label m wr h2)
    | true =>
      refine ⟨[], by simp, by simp, ?_, ?_⟩
      · intro hno
        rw [hno] at hcl
        cases hcl
      · intro label m wr h
        exact absurd h (fun h2 => hnot label m wr h2)

/-- The body touches no file but the one it opened. -/
theorem body_files_other (env : Env) (cfg : Configuration) (w : World) (e : Replace)
    (p : String) (hp : p ≠ resolved env cfg e) :
    (body env cfg w e).1.files p = w.files p := by
  rcases body_cases env cfg w e with ⟨hf, hb⟩ | ⟨msg, hf, hb⟩ | ⟨content, msg, k, hf, _, hb⟩ |
    ⟨content, steps, k, hf, hb⟩ <;> rw [hb]
  exact Pipe_other env w.files _ content _ p hp

/-- The body neither creates nor removes a file, nor changes what can be opened. -/
theorem body_skeleton (env : Env) (cfg : Configuration) (w : World) (e : Replace)
    (p : String) :
    ((body env cfg w e).1.files p).skeleton = (w.files p).skeleton := by
  rcases body_cases env cfg w e with ⟨hf, hb⟩ | ⟨msg, hf, hb⟩ | ⟨content, msg, k, hf, _, hb⟩ |
    ⟨content, steps, k, hf, hb⟩ <;> rw [hb]
  exact Pipe_skeleton env w.files _ content _ hf p

/-- The body opens exactly one path, the resolved one, and logs after what was logged. -/
theorem body_trace (env : Env) (cfg : Configuration) (w : World) (e : Replace) :
    ∃ tr, (body env cfg w e).1.trace = w.trace ++ Event.OpenFile (resolved env cfg e) :: tr ∧
      opened tr = [] := by
  rcases body_cases env cfg w e with ⟨hf, hb⟩ | ⟨msg, hf, hb⟩ | ⟨content, msg, k, hf, _, hb⟩ |
    ⟨content, steps, k, hf, hb⟩ <;> rw [hb]
  · exact ⟨[], by simp, rfl⟩
  · exact ⟨[], by simp, rfl⟩
  · exact ⟨compileEvents (e.Regexps.take k), by simp, opened_compileEvents _⟩
  · exact ⟨compileEvents (e.Regexps.take k) ++
      [Event.Pipe (resolved env cfg e) (steps ++ gofmtSteps cfg)], by simp,
      by simp [opened_append, opened_compileEvents, opened]⟩

/-- An entry whose file exists and whose body does not return has been piped. -/
theorem body_piped (env : Env) (cfg : Configuration) (w : World) (e : Replace)
    (hok : (body env cfg w e).2 = none) (hfile : (w.files (resolved env cfg e)).isFile = true) :
    ∃ tr steps, (body env cfg w e).1.trace = w.trace ++ tr ∧
      Event.Pipe (resolved env cfg e) steps ∈ tr := by
  rcases body_cases env cfg w e with ⟨hf, hb⟩ | ⟨msg, hf, hb⟩ | ⟨content, msg, k, hf, _, hb⟩ |
    ⟨content, steps, k, hf, hb⟩
  · rw [hf] at hfile; cases hfile
  · rw [hf] at hfile; cases hfile
  · rw [hb] at hok; cases hok
  · rw [hb]
    exact ⟨[Event.OpenFile (resolved env cfg e)] ++ compileEvents (e.Regexps.take k) ++
      [Event.Pipe (resolved env cfg e) (steps ++ gofmtSteps cfg)], steps ++ gofmtSteps cfg,
      by simp, by simp⟩

/-- The log and standard error do not influence what the body does to the
files, to the handles, or what it returns. -/
theorem body_sim (env : Env) (cfg : Configuration) (w w2 : World) (e : Replace)
    (h1 : w.files = w2.files) (h2 : w.handles = w2.handles) :
    (body env cfg w e).2 = (body env cfg w2 e).2 ∧
      (body env cfg w e).1.files = (body env cfg w2 e).1.files ∧
      (body env cfg w e).1.handles = (body env cfg w2 e).1.handles := by
  cases hf : w.files (resolved env cfg e) with
  | missing =>
    have hf2 : w2.files (resolved env cfg e) = Node.missing := by rw [← h1]; exact hf
    rw [body_missing env cfg w e hf, body_missing env cfg w2 e hf2]
    exact ⟨rfl, h1, h2⟩
  | unopenable msg =>
    have hf2 : w2.files (resolved env cfg e) = Node.unopenable msg := by rw [← h1]; exact hf
    rw [body_unopenable env cfg w e msg hf, body_unopenable env cfg w2 e msg hf2]
    exact ⟨rfl, h1, h2⟩
  | file content =>
    have hf2 : w2.files (resolved env cfg e) = Node.file content := by rw [← h1]; exact hf
    have hres := rangeRegexps_result env e.Regexps (stringSteps e)
      (w.trace ++ [Event.OpenFile (resolved env cfg e)])
      (w2.trace ++ [Event.OpenFile (resolved env cfg e)])
    rcases hc : rangeRegexps env e.Regexps (stringSteps e)
      (w.trace ++ [Event.OpenFile (resolved env cfg e)]) with ⟨tr, r⟩
    rcases hc2 : rangeRegexps env e.Regexps (stringSteps e)
      (w2.trace ++ [Event.OpenFile (resolved env cfg e)]) with ⟨tr2, r2⟩
    rw [hc, hc2] at hres
    simp only at hres
    subst hres
    cases r with
    | error msg =>
      rw [body_compile_error env cfg w e content msg tr hf hc,
        body_compile_error env cfg w2 e content msg tr2 hf2 hc2]
      exact ⟨rfl, h1, by simp [h2]⟩
    | ok steps =>
      rw [body_pipe env cfg w e content tr steps hf hc,
        body_pipe env cfg w2 e content tr2 steps hf2 hc2]
      exact ⟨by simp [h1], by simp [h1], by simp [h2]⟩

/-! ## The loops over the entries and the packages -/

theorem rangeRegenerates_cons_ok (env : Env) (cfg : Configuration) (w w1 : World)
    (e : Replace) (es : List Replace) (h : body env cfg w e = (w1, none)) :
    rangeRegenerates env cfg w (e :: es) = rangeRegenerates env cfg w1 es := by
  simp [rangeRegenerates, h]

theorem rangeRegenerates_cons_err (env : Env) (cfg : Configuration) (w w1 : World)
    (e : Replace) (es : List Replace) (err : GoError) (h : body env cfg w e = (w1, some err)) :
    rangeRegenerates env cfg w (e :: es) = (w1, some err) := by
  simp [rangeRegenerates, h]

theorem rangeRegenerates_append_ok (env : Env) (cfg : Configuration) :
    ∀ (a : List Replace) (w w1 : World) (b : List Replace),
      rangeRegenerates env cfg w a = (w1, none) →
      rangeRegenerates env cfg w (a ++ b) = rangeRegenerates env cfg w1 b := by
  intro a
  induction a with
  | nil => intro w w1 b h; simp [rangeRegenerates] at h; subst h; rfl
  | cons e es ih =>
    intro w w1 b h
    rcases hb : body env cfg w e with ⟨w2, _ | err⟩
    · rw [rangeRegenerates_cons_ok env cfg w w2 e es hb] at h
      rw [List.cons_append, rangeRegenerates_cons_ok env cfg w w2 e (es ++ b) hb]
      exact ih w2 w1 b h
    · rw [rangeRegenerates_cons_err env cfg w w2 e es err hb] at h
      cases h

theorem rangeRegenerates_append_err (env : Env) (cfg : Configuration) :
    ∀ (a : List Replace) (w w1 : World) (b : List Replace) (err : GoError),
      rangeRegenerates env cfg w a = (w1, some err) →
      rangeRegenerates env cfg w (a ++ b) = (w1, some err) := by
  intro a
  induction a with
  | nil => intro w w1 b err h; simp [rangeRegenerates] at h
  | cons e es ih =>
    intro w w1 b err h
    rcases hb : body env cfg w e with ⟨w2, _ | err2⟩
    · rw [rangeRegenerates_cons_ok env cfg w w2 e es hb] at h
      rw [List.cons_append, rangeRegenerates_cons_ok env cfg w w2 e (es ++ b) hb]
      exact ih w2 w1 b err h
    · rw [rangeRegenerates_cons_err env cfg w w2 e es err2 hb] at h
      rw [List.cons_append, rangeRegenerates_cons_err env cfg w w2 e (es ++ b) err2 hb]
      exact h

/-- The two nested loops are one loop over the flattened entries. -/
theorem rangePackages_flat (env : Env) (cfg : Configuration) :
    ∀ (ps : List Package) (w : World),
      rangePackages env cfg w ps =
        rangeRegenerates env cfg w (ps.flatMap Package.Regenerates) := by
  intro ps
  induction ps with
  | nil => intro w; rfl
  | cons p rest ih =>
    intro w
    rcases hr : rangeRegenerates env cfg w p.Regenerates with ⟨w1, _ | err⟩
    · rw [List.flatMap_cons, rangeRegenerates_append_ok env cfg _ w w1 _ hr]
      simp only [rangePackages, hr]
      exact ih w1
    · rw [List.flatMap_cons, rangeRegenerates_append_err env cfg _ w w1 _ err hr]
      simp only [rangePackages, hr]

/-- What `New` computes once the document has parsed. -/
theorem New_flat (env : Env) (yml : String) (opts : List ConfigOption) (w : World)
    (pkgs : List Package) (hy : env.unmarshal yml = Except.ok pkgs) :
    New env yml opts w =
      rangeRegenerates env (configure pkgs opts) w (entries (configure pkgs opts)) := by
  simp only [New, hy, configure, entries]
  exact rangePackages_flat env _ _ w

/-- A run that returns an error stopped in the body of one entry, after the
entries before it went through. -/
theorem rangeRegenerates_error_split (env : Env) (cfg : Configuration) :
    ∀ (es : List Replace) (w w2 : World) (err : GoError),
      rangeRegenerates env cfg w es = (w2, some err) →
      ∃ pre e post w1, es = pre ++ e :: post ∧
        rangeRegenerates env cfg w pre = (w1, none) ∧ body env cfg w1 e = (w2, some err) := by
  intro es
  induction es with
  | nil => intro w w2 err h; simp [rangeRegenerates] at h
  | cons e es ih =>
    intro w w2 err h
    rcases hb : body env cfg w e with ⟨w1, _ | err2⟩
    · rw [rangeRegenerates_cons_ok env cfg w w1 e es hb] at h
      obtain ⟨pre, x, post, w3, hsplit, hpre, hx⟩ := ih w1 w2 err h
      refine ⟨e :: pre, x, post, w3, by simp [hsplit], ?_, hx⟩
      rw [rangeRegenerates_cons_ok env cfg w w1 e pre hb]
      exact hpre
    · rw [rangeRegenerates_cons_err env cfg w w1 e es err2 hb] at h
      cases h
      exact ⟨[], e, es, w, rfl, rfl, hb⟩

/-- No run creates or removes a file, or changes what can be opened. -/
theorem rangeRegenerates_skeleton (env : Env) (cfg : Configuration) (p : String) :
    ∀ (es : List Replace) (w : World),
      ((rangeRegenerates env cfg w es).1.files p).skeleton = (w.files p).skeleton := by
  intro es
  induction es with
  | nil => intro w; rfl
  | cons e es ih =>
    intro w
    have hs := body_skeleton env cfg w e p
    rcases hb : body env cfg w e with ⟨w1, _ | err⟩
    · rw [rangeRegenerates_cons_ok env cfg w w1 e es hb, ih w1]
      rw [hb] at hs; exact hs
    · rw [rangeRegenerates_cons_err env cfg w w1 e es err hb]
      rw [hb] at hs; exact hs

/-- A run leaves alone every file that none of its entries names. -/
theorem rangeRegenerates_files_other (env : Env) (cfg : Configuration) (p : String) :
    ∀ (es : List Replace) (w : World), (∀ e ∈ es, resolved env cfg e ≠ p) →
      (rangeRegenerates env cfg w es).1.files p = w.files p := by
  intro es
  induction es with
  | nil => intro w _; rfl
  | cons e es ih =>
    intro w h
    have hne : p ≠ resolved env cfg e := fun hp => h e (List.mem_cons_self e es) hp.symm
    have ho := body_files_other env cfg w e p hne
    have hrest : ∀ x ∈ es, resolved env cfg x ≠ p :=
      fun x hx => h x (List.mem_cons_of_mem e hx)
    rcases hb : body env cfg w e with ⟨w1, _ | err⟩
    · rw [rangeRegenerates_cons_ok env cfg w w1 e es hb, ih w1 hrest]
      rw [hb] at ho; exact ho
    · rw [rangeRegenerates_cons_err env cfg w w1 e es err hb]
      rw [hb] at ho; exact ho

theorem filter_cons_paths (f : Replace → Bool) (g : Replace → String) (e : Replace)
    (l : List Replace) :
    ((e :: l).filter f).map g = (if f e then [g e] else []) ++ (l.filter f).map g := by
  by_cases h : f e = true <;> simp [List.filter, h]

/-- What a run opened and which handles it left open: the first `k` entries
were opened, all of them when the run returns nil; the handles open before the
run are still open, followed in order by handles of those entries whose path
names a file, all of them when `regenerate.Pipe` never closes its file. -/
theorem rangeRegenerates_summary (env : Env) (cfg : Configuration) :
    ∀ (es : List Replace) (w : World),
      ∃ k tr, k ≤ es.length ∧
        (rangeRegenerates env cfg w es).1.trace = w.trace ++ tr ∧
        opened tr = (es.take k).map (resolved env cfg) ∧
        (∃ H, (rangeRegenerates env cfg w es).1.handles = w.handles ++ H ∧
          H.Sublist (((es.take k).filter
            (fun e => (w.files (resolved env cfg e)).isFile)).map (resolved env cfg)) ∧
          ((∀ c s, env.pipeCloses c s = false) →
            H = ((es.take k).filter
              (fun e => (w.files (resolved env cfg e)).isFile)).map (resolved env cfg))) ∧
        ((rangeRegenerates env cfg w es).2 = none → k = es.length) := by
  intro es
  induction es with
  | nil => intro w; exact ⟨0, [], le_refl _, by simp [rangeRegenerates], rfl,
      ⟨[], by simp [rangeRegenerates], by simp, fun _ => by simp⟩, fun _ => rfl⟩
  | cons e es ih =>
    intro w
    obtain ⟨tr1, ht1, ho1⟩ := body_trace env cfg w e
    obtain ⟨keep, hkeep, hsub, hall, _⟩ := body_handles env cfg w e
    rcases hb : body env cfg w e with ⟨w1, _ | err⟩
    · rw [hb] at ht1 hkeep
      simp only at ht1 hkeep
      obtain ⟨k, tr, hk, htr, hop, ⟨H, hha, hHsub, hHall⟩, hnone⟩ := ih w1
      have hfun : (fun x => (w1.files (resolved env cfg x)).isFile) =
          (fun x => (w.files (resolved env cfg x)).isFile) := by
        funext x
        have hs := body_skeleton env cfg w e (resolved env cfg x)
        rw [hb] at hs
        simp only at hs
        rw [← Node.isFile_skeleton, hs, Node.isFile_skeleton]
      rw [hfun] at hHsub hHall
      refine ⟨k + 1, Event.OpenFile (resolved env cfg e) :: tr1 ++ tr, by simpa using hk,
        ?_, ?_, ⟨keep ++ H, ?_, ?_, ?_⟩, ?_⟩
      · rw [rangeRegenerates_cons_ok env cfg w w1 e es hb, htr, ht1]
        simp
      · simp [opened, opened_append, ho1, hop]
      · rw [rangeRegenerates_cons_ok env cfg w w1 e es hb, hha, hkeep]
        simp
      · rw [List.take_succ_cons, filter_cons_paths]
        exact List.Sublist.append hsub hHsub
      · intro hno
        rw [List.take_succ_cons, filter_cons_paths, hall hno, hHall hno]
      · intro h
        rw [rangeRegenerates_cons_ok env cfg w w1 e es hb] at h
        simp [hnone h]
    · rw [hb] at ht1 hkeep
      simp only at ht1 hkeep
      refine ⟨1, Event.OpenFile (resolved env cfg e) :: tr1, by simp, ?_, ?_,
        ⟨keep, ?_, ?_, ?_⟩, ?_⟩
      · rw [rangeRegenerates_cons_err env cfg w w1 e es err hb, ht1]
      · simp [opened, ho1]
      · rw [rangeRegenerates_cons_err env cfg w w1 e es err hb, hkeep]
      · rw [List.take_succ_cons, List.take_zero, filter_cons_paths]
        simpa using hsub
      · intro hno
        rw [List.take_succ_cons, List.take_zero, filter_cons_paths, hall hno]
        simp
      · intro h
        rw [rangeRegenerates_cons_err env cfg w w1 e es err hb] at h
        cases h

/-- After a run that returns nil, every entry whose file exists has been piped. -/
theorem rangeRegenerates_piped (env : Env) (cfg : Configuration) :
    ∀ (es : List Replace) (w : World), (rangeRegenerates env cfg w es).2 = none →
      ∀ e ∈ es, (w.files (resolved env cfg e)).isFile = true →
        ∃ tr steps, (rangeRegenerates env cfg w es).1.trace = w.trace ++ tr ∧
          Event.Pipe (resolved env cfg e) steps ∈ tr := by
  intro es
  induction es with
  | nil => intro w _ e he; simp at he
  | cons x es ih =>
    intro w hok e he hfile
    rcases hb : body env cfg w x with ⟨w1, _ | err⟩
    · rw [rangeRegenerates_cons_ok env cfg w w1 x es hb] at hok ⊢
      obtain ⟨k, tr2, _, htr2, _, _, _⟩ := rangeRegenerates_summary env cfg es w1
      obtain ⟨tr1, htr1, _⟩ := body_trace env cfg w x
      rw [hb] at htr1
      simp only at htr1
      rcases List.mem_cons.mp he with hx | hx
      · subst hx
        obtain ⟨tr, steps, ht, hmem⟩ := body_piped env cfg w e (by rw [hb]) hfile
        rw [hb] at ht
        simp only at ht
        exact ⟨tr ++ tr2, steps, by rw [htr2, ht]; simp, List.mem_append_left _ hmem⟩
      · have hs := body_skeleton env cfg w x (resolved env cfg e)
        rw [hb] at hs
        simp only at hs
        have hfile1 : (w1.files (resolved env cfg e)).isFile = true := by
          rw [← Node.isFile_skeleton, hs, Node.isFile_skeleton]; exact hfile
        obtain ⟨tr, steps, ht, hmem⟩ := ih w1 hok e hx hfile1
        exact ⟨Event.OpenFile (resolved env cfg x) :: tr1 ++ tr, steps,
          by rw [ht, htr1]; simp, List.mem_append_right _ hmem⟩
    · rw [rangeRegenerates_cons_err env cfg w w1 x es err hb] at hok
      cases hok

/-- The log and standard error do not influence what a run does to the files,
to the handles, or what it returns. -/
theorem rangeRegenerates_sim (env : Env) (cfg : Configuration) :
    ∀ (es : List Replace) (w w2 : World), w.files = w2.files → w.handles = w2.handles →
      (rangeRegenerates env cfg w es).2 = (rangeRegenerates env cfg w2 es).2 ∧
        (rangeRegenerates env cfg w es).1.files = (rangeRegenerates env cfg w2 es).1.files ∧
        (rangeRegenerates env cfg w es).1.handles =
          (rangeRegenerates env cfg w2 es).1.handles := by
  intro es
  induction es with
  | nil => intro w w2 h1 h2; exact ⟨rfl, h1, h2⟩
  | cons e es ih =>
    intro w w2 h1 h2
    obtain ⟨s1, s2, s3⟩ := body_sim env cfg w w2 e h1 h2
    rcases hb : body env cfg w e with ⟨a, r⟩
    rcases hb2 : body env cfg w2 e with ⟨a2, r2⟩
    rw [hb, hb2] at s1 s2 s3
    simp only at s1 s2 s3
    subst s1
    cases r with
    | none =>
      rw [rangeRegenerates_cons_ok env cfg w a e es hb,
        rangeRegenerates_cons_ok env cfg w2 a2 e es hb2]
      exact ih a a2 s2 s3
    | some err =>
      rw [rangeRegenerates_cons_err env cfg w a e es err hb,
        rangeRegenerates_cons_err env cfg w2 a2 e es err hb2]
      exact ⟨rfl, s2, s3⟩

/-! ## The engine on the steps of an entry -/

theorem Apply_append (env : Env) :
    ∀ (a : List Step) (content out : String) (b : List Step),
      Apply env content a = Except.ok out → Apply env content (a ++ b) = Apply env out b := by
  intro a
  induction a with
  | nil => intro content out b h; simp [Apply] at h; subst h; rfl
  | cons s rest ih =>
    intro content out b h
    cases hs : applyStep env content s with
    | error m => simp [Apply, hs] at h
    | ok mid =>
      simp only [Apply, hs] at h
      simp only [List.cons_append, Apply, hs]
      exact ih mid out b h

theorem Apply_strings (env : Env) :
    ∀ (rules : List StringRule) (content : String),
      Apply env content (rules.map (fun rep => Step.ReplaceString rep.Match rep.Replacement)) =
        Except.ok (applyStrings content rules) := by
  intro rules
  induction rules with
  | nil => intro content; rfl
  | cons r rs ih =>
    intro content
    simp only [List.map_cons, Apply, applyStep, applyStrings, List.foldl_cons]
    exact ih _

theorem Apply_regexps (env : Env) (compiled : String → CompiledRegexp) :
    ∀ (rules : List Regexp) (content : String),
      Apply env content
          (rules.map (fun rep => Step.ReplaceRegexp (compiled rep.Match) rep.Replacement)) =
        Except.ok (applyRegexps env compiled content rules) := by
  intro rules
  induction rules with
  | nil => intro content; rfl
  | cons r rs ih =>
    intro content
    simp only [List.map_cons, Apply, applyStep, applyRegexps, List.foldl_cons]
    exact ih _

/-! ## From the loops to `New` -/

/-- Once the entries before `e` went through, `New` is at `e`. -/
theorem New_reach (env : Env) (yml : String) (opts : List ConfigOption) (w w1 : World)
    (pkgs : List Package) (pre : List Replace) (e : Replace) (post : List Replace)
    (hy : env.unmarshal yml = Except.ok pkgs)
    (hsplit : entries (configure pkgs opts) = pre ++ e :: post)
    (hpre : rangeRegenerates env (configure pkgs opts) w pre = (w1, none)) :
    New env yml opts w = rangeRegenerates env (configure pkgs opts) w1 (e :: post) := by
  rw [New_flat env yml opts w pkgs hy, hsplit]
  exact rangeRegenerates_append_ok env _ pre w w1 _ hpre

/-- The body on an entry whose file opens and whose patterns all compile. -/
theorem body_compiled (env : Env) (cfg : Configuration) (w : World) (e : Replace)
    (content : String) (compiled : String → CompiledRegexp)
    (hfile : w.files (resolved env cfg e) = Node.file content)
    (hcomp : ∀ rep ∈ e.Regexps, env.compile rep.Match = Except.ok (compiled rep.Match)) :
    body env cfg w e =
      ({ w with
          trace := w.trace ++ [Event.OpenFile (resolved env cfg e)] ++ compileEvents e.Regexps ++
            [Event.Pipe (resolved env cfg e)
              (stringSteps e ++ regexpSteps compiled e ++ gofmtSteps cfg)],
          handles :=
            if env.pipeCloses content (stringSteps e ++ regexpSteps compiled e ++ gofmtSteps cfg)
            then w.handles else w.handles ++ [resolved env cfg e],
          files := (Pipe env w.files (resolved env cfg e) content
            (stringSteps e ++ regexpSteps compiled e ++ gofmtSteps cfg)).1 },
        (Pipe env w.files (resolved env cfg e) content
          (stringSteps e ++ regexpSteps compiled e ++ gofmtSteps cfg)).2.map
          (fun m => ⟨"regenerate pipe", Cause.pipe m, false⟩)) := by
  have hc := rangeRegexps_ok env compiled e.Regexps (stringSteps e)
    (w.trace ++ [Event.OpenFile (resolved env cfg e)]) hcomp
  rw [body_pipe env cfg w e content _ _ hfile hc]
  rfl

theorem gofmtSteps_eq (cfg : Configuration) :
    gofmtSteps cfg = cfg.gofmt.toList.map Step.WithGofmt := by
  unfold gofmtSteps
  cases cfg.gofmt <;> rfl

/-- The body reads the configuration through `directory` and `gofmt` only. -/
theorem body_congr (env : Env) (cfg cfg2 : Configuration) (w : World) (e : Replace)
    (hdir : cfg2.directory = cfg.directory) (hfmt : cfg2.gofmt = cfg.gofmt) :
    body env cfg2 w e = body env cfg w e := by
  simp only [body, hdir, hfmt]

theorem rangeRegenerates_congr (env : Env) (cfg cfg2 : Configuration)
    (hdir : cfg2.directory = cfg.directory) (hfmt : cfg2.gofmt = cfg.gofmt) :
    ∀ (es : List Replace) (w : World),
      rangeRegenerates env cfg2 w es = rangeRegenerates env cfg w es := by
  intro es
  induction es with
  | nil => intro w; rfl
  | cons e es ih =>
    intro w
    simp only [rangeRegenerates, body_congr env cfg cfg2 w e hdir hfmt, ih]

/-- A run over entries whose files are all missing returns nil and changes no file. -/
theorem rangeRegenerates_all_missing (env : Env) (cfg : Configuration) :
    ∀ (es : List Replace) (w : World),
      (∀ x ∈ es, w.files (resolved env cfg x) = Node.missing) →
      (rangeRegenerates env cfg w es).2 = none ∧
        (rangeRegenerates env cfg w es).1.files = w.files := by
  intro es
  induction es with
  | nil => intro w _; exact ⟨rfl, rfl⟩
  | cons e es ih =>
    intro w h
    have hb := body_missing env cfg w e (h e (List.mem_cons_self e es))
    rw [rangeRegenerates_cons_ok env cfg w _ e es hb]
    exact ih _ (fun x hx => h x (List.mem_cons_of_mem e hx))

/-- A body that returns an error of the regexp compiler has changed no file, and
the error is that of one of the entry's patterns. -/
theorem body_regexp_error (env : Env) (cfg : Configuration) (w w2 : World) (e : Replace)
    (label msg : String) (wr : Bool)
    (h : body env cfg w e = (w2, some ⟨label, Cause.regexp msg, wr⟩)) :
    w2.files = w.files ∧ (w.files (resolved env cfg e)).isFile = true ∧
      ∃ bad ∈ e.Regexps, env.compile bad.Match = Except.error msg := by
  rcases body_cases env cfg w e with ⟨hf, hb⟩ | ⟨m, hf, hb⟩ | ⟨content, m, k, hf, hbad, hb⟩ |
    ⟨content, steps, k, hf, hb⟩
  · rw [hb] at h; simp at h
  · rw [hb] at h; simp at h
  · rw [hb] at h
    simp only [Prod.mk.injEq, Option.some.injEq, GoError.mk.injEq, Cause.regexp.injEq] at h
    obtain ⟨hw, _, hm, _⟩ := h
    subst hw
    subst hm
    exact ⟨rfl, by rw [hf]; rfl, hbad⟩
  · rw [hb] at h
    rcases hp : (Pipe env w.files (resolved env cfg e) content (steps ++ gofmtSteps cfg)).2 with
      _ | m
    · rw [hp] at h; simp at h
    · rw [hp] at h; simp at h

/-! ## The claims -/

set_option maxRecDepth 8000

/-- C1: when `New` reaches an entry (the entries before it went through) whose
file opens and whose patterns all compile, it opens the file, compiles the
patterns and then calls `regenerate.Pipe` on that file with exactly: one literal
step per entry of `Strings` in declaration order, then one regex step per entry
of `Regexps` in declaration order, then one formatter step if and only if
`gofmt` is not nil, last. What the log holds after that call belongs to later
entries. -/
theorem New_pipe_steps (env : Env) (yml : String) (opts : List ConfigOption) (w w1 : World)
    (pkgs : List Package) (pre : List Replace) (e : Replace) (post : List Replace)
    (content : String) (compiled : String → CompiledRegexp)
    (hy : env.unmarshal yml = Except.ok pkgs)
    (hsplit : entries (configure pkgs opts) = pre ++ e :: post)
    (hpre : rangeRegenerates env (configure pkgs opts) w pre = (w1, none))
    (hfile : w1.files (env.join (configure pkgs opts).directory e.File) = Node.file content)
    (hcomp : ∀ rep ∈ e.Regexps, env.compile rep.Match = Except.ok (compiled rep.Match)) :
    ∃ k tr,
      (New env yml opts w).1.trace =
        w1.trace ++ [Event.OpenFile (env.join (configure pkgs opts).directory e.File)] ++
          e.Regexps.map (fun rep => Event.Compile rep.Match) ++
          [Event.Pipe (env.join (configure pkgs opts).directory e.File)
            (e.Strings.map (fun rep => Step.ReplaceString rep.Match rep.Replacement) ++
              e.Regexps.map
                (fun rep => Step.ReplaceRegexp (compiled rep.Match) rep.Replacement) ++
              (configure pkgs opts).gofmt.toList.map Step.WithGofmt)] ++ tr ∧
      opened tr = (post.take k).map (resolved env (configure pkgs opts)) := by
  rw [New_reach env yml opts w w1 pkgs pre e post hy hsplit hpre]
  have hb := body_compiled env (configure pkgs opts) w1 e content compiled hfile hcomp
  rw [gofmtSteps_eq] at hb
  simp only [resolved, stringSteps, regexpSteps, compileEvents] at hb
  rcases hp : Pipe env w1.files (env.join (configure pkgs opts).directory e.File) content
    (e.Strings.map (fun rep => Step.ReplaceString rep.Match rep.Replacement) ++
      e.Regexps.map (fun rep => Step.ReplaceRegexp (compiled rep.Match) rep.Replacement) ++
      (configure pkgs opts).gofmt.toList.map Step.WithGofmt) with ⟨fs, _ | m⟩
  · rw [hp] at hb
    simp only [Option.map_none'] at hb
    rw [rangeRegenerates_cons_ok env _ w1 _ e post hb]
    obtain ⟨k, tr, _, htr, hop, _, _⟩ := rangeRegenerates_summary env (configure pkgs opts) post
      { w1 with
        trace := w1.trace ++ [Event.OpenFile (env.join (configure pkgs opts).directory e.File)] ++
          e.Regexps.map (fun rep => Event.Compile rep.Match) ++
          [Event.Pipe (env.join (configure pkgs opts).directory e.File)
            (e.Strings.map (fun rep => Step.ReplaceString rep.Match rep.Replacement) ++
              e.Regexps.map
                (fun rep => Step.ReplaceRegexp (compiled rep.Match) rep.Replacement) ++
              (configure pkgs opts).gofmt.toList.map Step.WithGofmt)],
        handles :=
          if env.pipeCloses content
            (e.Strings.map (fun rep => Step.ReplaceString rep.Match rep.Replacement) ++
              e.Regexps.map
                (fun rep => Step.ReplaceRegexp (compiled rep.Match) rep.Replacement) ++
              (configure pkgs opts).gofmt.toList.map Step.WithGofmt)
          then w1.handles
          else w1.handles ++ [env.join (configure pkgs opts).directory e.File],
        files := fs }
    exact ⟨k, tr, htr, hop⟩
  · rw [hp] at hb
    simp only [Option.map_some'] at hb
    rw [rangeRegenerates_cons_err env _ w1 _ e post _ hb]
    exact ⟨0, [], by simp, rfl⟩

/-- Witness of C1: `x.go` with one literal rule, one regex rule and a formatter. -/
theorem New_pipe_steps_witness :
    ∃ k tr,
      (New demoEnv docBoth [WithGofmt (some ⟨0⟩)] demoWorld).1.trace =
        [Event.OpenFile "x.go", Event.Compile "func",
          Event.Pipe "x.go" [Step.ReplaceString "// TODO" "// DONE",
            Step.ReplaceRegexp ⟨"func"⟩ "fn", Step.WithGofmt ⟨0⟩]] ++ tr ∧
      opened tr = (([] : List Replace).take k).map
        (resolved demoEnv (configure pkgsBoth [WithGofmt (some ⟨0⟩)])) :=
  New_pipe_steps demoEnv docBoth [WithGofmt (some ⟨0⟩)] demoWorld demoWorld pkgsBoth []
    ⟨"x.go", [⟨"// TODO", "// DONE"⟩], [⟨"func", "fn"⟩]⟩ [] "// TODO\nfunc f()\x7b\x7d"
    (fun p => ⟨p⟩) rfl (by decide) rfl (by decide)
    (by intro rep h; simp at h; subst h; rfl)

/-- An entry with a pattern that does not compile: in whatever state its body
runs (file missing, not openable, or opened), the body changes no file and does
not call the pipe. -/
theorem body_invalid_pattern (env : Env) (cfg : Configuration) (w : World) (e : Replace)
    (compiled : String → CompiledRegexp) (good : List Regexp) (bad : Regexp)
    (rest : List Regexp) (msg : String)
    (hrules : e.Regexps = good ++ bad :: rest)
    (hgood : ∀ rep ∈ good, env.compile rep.Match = Except.ok (compiled rep.Match))
    (hbad : env.compile bad.Match = Except.error msg) :
    (body env cfg w e).1.files = w.files ∧
      ∃ tr, (body env cfg w e).1.trace = w.trace ++ tr ∧
        ∀ p steps, Event.Pipe p steps ∉ tr := by
  cases hf : w.files (resolved env cfg e) with
  | missing =>
    rw [body_missing env cfg w e hf]
    exact ⟨rfl, [Event.OpenFile (resolved env cfg e)], rfl, by simp⟩
  | unopenable m =>
    rw [body_unopenable env cfg w e m hf]
    exact ⟨rfl, [Event.OpenFile (resolved env cfg e)], rfl, by simp⟩
  | file content =>
    have hc := rangeRegexps_fail env compiled bad rest msg hbad good (stringSteps e)
      (w.trace ++ [Event.OpenFile (resolved env cfg e)]) hgood
    rw [← hrules] at hc
    rw [body_compile_error env cfg w e content msg _ hf hc]
    exact ⟨rfl, [Event.OpenFile (resolved env cfg e)] ++ compileEvents (good ++ [bad]),
      by simp, by simp [compileEvents]⟩

/-- C4: when `New` reaches an entry whose file opens and one of whose patterns
does not compile, it returns the compile error of the first such pattern before
`regenerate.Pipe` is called for the entry: after the open only calls to the
compiler are logged, and every file holds what it held when the entry was
reached, however many literal rules and valid regex rules come before the
invalid one. In whatever state such an entry is processed, its body changes no
file and makes no call to `regenerate.Pipe`. -/
theorem New_compile_error_before_pipe (env : Env) (yml : String) (opts : List ConfigOption)
    (w w1 : World) (pkgs : List Package) (pre : List Replace) (e : Replace)
    (post : List Replace) (content : String) (compiled : String → CompiledRegexp)
    (good : List Regexp) (bad : Regexp) (rest : List Regexp) (msg : String)
    (hy : env.unmarshal yml = Except.ok pkgs)
    (hsplit : entries (configure pkgs opts) = pre ++ e :: post)
    (hpre : rangeRegenerates env (configure pkgs opts) w pre = (w1, none))
    (hfile : w1.files (env.join (configure pkgs opts).directory e.File) = Node.file content)
    (hrules : e.Regexps = good ++ bad :: rest)
    (hgood : ∀ rep ∈ good, env.compile rep.Match = Except.ok (compiled rep.Match))
    (hbad : env.compile bad.Match = Except.error msg) :
    (New env yml opts w).2 = some ⟨"regexp compile", Cause.regexp msg, true⟩ ∧
      (New env yml opts w).1.files = w1.files ∧
      (New env yml opts w).1.files (env.join (configure pkgs opts).directory e.File) =
        Node.file content ∧
      (New env yml opts w).1.trace =
        w1.trace ++ [Event.OpenFile (env.join (configure pkgs opts).directory e.File)] ++
          (good ++ [bad]).map (fun rep => Event.Compile rep.Match) ∧
      (∀ p steps, Event.Pipe p steps ∉
        [Event.OpenFile (env.join (configure pkgs opts).directory e.File)] ++
          (good ++ [bad]).map (fun rep => Event.Compile rep.Match)) ∧
      ∀ w0 : World, (body env (configure pkgs opts) w0 e).1.files = w0.files ∧
        ∃ tr, (body env (configure pkgs opts) w0 e).1.trace = w0.trace ++ tr ∧
          ∀ p steps, Event.Pipe p steps ∉ tr := by
  have hany := fun w0 =>
    body_invalid_pattern env (configure pkgs opts) w0 e compiled good bad rest msg hrules
      hgood hbad
  rw [New_reach env yml opts w w1 pkgs pre e post hy hsplit hpre]
  have hc := rangeRegexps_fail env compiled bad rest msg hbad good (stringSteps e)
    (w1.trace ++ [Event.OpenFile (resolved env (configure pkgs opts) e)]) hgood
  rw [← hrules] at hc
  have hb := body_compile_error env (configure pkgs opts) w1 e content msg _ hfile hc
  rw [rangeRegenerates_cons_err env _ w1 _ e post _ hb]
  refine ⟨rfl, rfl, hfile, rfl, ?_, hany⟩
  intro p steps hmem
  simp at hmem

/-- Witness of C4: `x.go` exists and its only pattern is `(`. -/
theorem New_compile_error_before_pipe_witness :
    (New demoEnv docBadRegexp [] demoWorld).2 =
        some ⟨"regexp compile", Cause.regexp "missing closing )", true⟩ ∧
      (New demoEnv docBadRegexp [] demoWorld).1.files = demoWorld.files ∧
      (New demoEnv docBadRegexp [] demoWorld).1.files "x.go" =
        Node.file "// TODO\nfunc f()\x7b\x7d" ∧
      (New demoEnv docBadRegexp [] demoWorld).1.trace =
        [Event.OpenFile "x.go", Event.Compile "("] :=
  have h := New_compile_error_before_pipe demoEnv docBadRegexp [] demoWorld demoWorld
    pkgsBadRegexp [] ⟨"x.go", [], [⟨"(", ""⟩]⟩ [] "// TODO\nfunc f()\x7b\x7d" (fun p => ⟨p⟩)
    [] ⟨"(", ""⟩ [] "missing closing )" rfl (by decide) rfl (by decide) rfl
    (by intro rep h; simp at h) rfl
  ⟨h.1, h.2.1, h.2.2.1, h.2.2.2.1⟩

/-- C5 (with the pipe of the spec): without a formatter, when `New` returns nil
and the patterns of an entry compile, the file that the entry names, holding
`content` when the entry is reached, holds right after the entry the result of
its literal rules and then its regex rules applied one after the other to
`content`; the result takes the place of the previous content and no other file
changes. That is the content when `New` returns unless a later entry names the
same file, and `content` is the content before the run unless an earlier entry
names the same file. With no rule at all the content is unchanged. -/
theorem New_rewrites_file (env : Env) (yml : String) (opts : List ConfigOption) (w : World)
    (pkgs : List Package) (pre : List Replace) (e : Replace) (post : List Replace)
    (content : String) (compiled : String → CompiledRegexp)
    (hy : env.unmarshal yml = Except.ok pkgs)
    (hfmt : (configure pkgs opts).gofmt = none)
    (hsplit : entries (configure pkgs opts) = pre ++ e :: post)
    (hfile : (rangeRegenerates env (configure pkgs opts) w pre).1.files
      (env.join (configure pkgs opts).directory e.File) = Node.file content)
    (hcomp : ∀ rep ∈ e.Regexps, env.compile rep.Match = Except.ok (compiled rep.Match))
    (hnil : (New env yml opts w).2 = none) :
    (rangeRegenerates env (configure pkgs opts) w (pre ++ [e])).1.files =
        setFile (rangeRegenerates env (configure pkgs opts) w pre).1.files
          (env.join (configure pkgs opts).directory e.File)
          (Node.file (applyRegexps env compiled (applyStrings content e.Strings) e.Regexps)) ∧
      ((∀ x ∈ post, env.join (configure pkgs opts).directory x.File ≠
          env.join (configure pkgs opts).directory e.File) →
        (New env yml opts w).1.files (env.join (configure pkgs opts).directory e.File) =
          Node.file (applyRegexps env compiled (applyStrings content e.Strings) e.Regexps)) ∧
      ((∀ x ∈ pre, env.join (configure pkgs opts).directory x.File ≠
          env.join (configure pkgs opts).directory e.File) →
        w.files (env.join (configure pkgs opts).directory e.File) = Node.file content) ∧
      (e.Strings = [] → e.Regexps = [] →
        applyRegexps env compiled (applyStrings content e.Strings) e.Regexps = content) := by
  have hflat := New_flat env yml opts w pkgs hy
  rw [hsplit] at hflat
  rcases hp : rangeRegenerates env (configure pkgs opts) w pre with ⟨w1, _ | err⟩
  · rw [hp] at hfile
    have hfile1 : w1.files (resolved env (configure pkgs opts) e) = Node.file content := hfile
    have happ : Apply env content (stringSteps e ++ regexpSteps compiled e ++
        gofmtSteps (configure pkgs opts)) =
        Except.ok (applyRegexps env compiled (applyStrings content e.Strings) e.Regexps) := by
      simp only [gofmtSteps, hfmt, List.append_nil]
      rw [Apply_append env (stringSteps e) content _ _ (Apply_strings env e.Strings content)]
      exact Apply_regexps env compiled e.Regexps _
    have hb := body_compiled env (configure pkgs opts) w1 e content compiled hfile1 hcomp
    rw [Pipe_ok env w1.files _ content _ _ happ] at hb
    simp only [Option.map_none'] at hb
    refine ⟨?_, ?_, ?_, ?_⟩
    · rw [rangeRegenerates_append_ok env _ pre w w1 _ hp,
        rangeRegenerates_cons_ok env _ w1 _ e [] hb]
      rfl
    · intro hlater
      have hpost := fun W => rangeRegenerates_files_other env (configure pkgs opts)
        (resolved env (configure pkgs opts) e) post W hlater
      rw [rangeRegenerates_append_ok env _ pre w w1 _ hp,
        rangeRegenerates_cons_ok env _ w1 _ e post hb] at hflat
      rw [hflat]
      exact (hpost _).trans (by simp [setFile])
    · intro hearlier
      have ho := rangeRegenerates_files_other env (configure pkgs opts)
        (resolved env (configure pkgs opts) e) pre w hearlier
      rw [hp] at ho
      simp only at ho
      exact ho.symm.trans hfile1
    · intro hs hr
      rw [hs, hr]
      rfl
  · rw [rangeRegenerates_append_err env _ pre w w1 _ err hp] at hflat
    rw [hflat] at hnil
    cases hnil

/-- Witness of C5: the two examples of the claim. -/
theorem New_rewrites_file_witness :
    (New demoEnv docTodo [] demoWorld).2 = none ∧
    (New demoEnv docTodo [] demoWorld).1.files "x.go" =
      Node.file "// DONE\nfunc f()\x7b\x7d" ∧
    (New demoEnv docEmptyRules [] demoWorld).2 = none ∧
    (New demoEnv docEmptyRules [] demoWorld).1.files "x.go" =
      Node.file "// TODO\nfunc f()\x7b\x7d" :=
  ⟨by decide,
    (New_rewrites_file demoEnv docTodo [] demoWorld pkgsTodo []
      ⟨"x.go", [⟨"// TODO", "// DONE"⟩], []⟩ [] "// TODO\nfunc f()\x7b\x7d" (fun p => ⟨p⟩)
      rfl rfl (by decide) (by decide) (by intro rep h; simp at h) (by decide)).2.1
      (by intro x h; simp at h),
    by decide,
    (New_rewrites_file demoEnv docEmptyRules [] demoWorld pkgsEmptyRules []
      ⟨"x.go", [], []⟩ [] "// TODO\nfunc f()\x7b\x7d" (fun p => ⟨p⟩)
      rfl rfl (by decide) (by decide) (by intro rep h; simp at h) (by decide)).2.1
      (by intro x h; simp at h)⟩

/-- C2: an entry whose resolved file does not exist makes `New` run exactly as
on a document without that entry (same options, same directory and formatter):
the same return value, the same files and the same open handles, so the entry
causes no error, changes no file and does not disturb the entries after it; the
missing file is not created. A configuration all of whose files are missing
makes `New` return nil with every file as it was. -/
theorem New_skips_missing_file (env : Env) (yml yml2 : String) (opts : List ConfigOption)
    (w : World) (pkgs pkgs2 : List Package) (pre : List Replace) (e : Replace)
    (post : List Replace)
    (hy : env.unmarshal yml = Except.ok pkgs)
    (hy2 : env.unmarshal yml2 = Except.ok pkgs2)
    (hsplit : entries (configure pkgs opts) = pre ++ e :: post)
    (hsplit2 : entries (configure pkgs2 opts) = pre ++ post)
    (hdir : (configure pkgs2 opts).directory = (configure pkgs opts).directory)
    (hfmt : (configure pkgs2 opts).gofmt = (configure pkgs opts).gofmt)
    (hmiss : w.files (env.join (configure pkgs opts).directory e.File) = Node.missing) :
    (New env yml opts w).2 = (New env yml2 opts w).2 ∧
      (New env yml opts w).1.files = (New env yml2 opts w).1.files ∧
      (New env yml opts w).1.handles = (New env yml2 opts w).1.handles ∧
      (New env yml opts w).1.files (env.join (configure pkgs opts).directory e.File) =
        Node.missing ∧
      ((∀ x ∈ entries (configure pkgs opts),
          w.files (env.join (configure pkgs opts).directory x.File) = Node.missing) →
        (New env yml opts w).2 = none ∧ (New env yml opts w).1.files = w.files) := by
  have hflat := New_flat env yml opts w pkgs hy
  have hflat2 := New_flat env yml2 opts w pkgs2 hy2
  rw [hsplit2, rangeRegenerates_congr env (configure pkgs opts) (configure pkgs2 opts) hdir hfmt]
    at hflat2
  have hstill : (New env yml opts w).1.files
      (env.join (configure pkgs opts).directory e.File) = Node.missing := by
    have hs := rangeRegenerates_skeleton env (configure pkgs opts)
      (env.join (configure pkgs opts).directory e.File) (entries (configure pkgs opts)) w
    rw [← hflat, hmiss] at hs
    exact (Node.skeleton_missing _).mp hs
  have hall : (∀ x ∈ entries (configure pkgs opts),
      w.files (env.join (configure pkgs opts).directory x.File) = Node.missing) →
      (New env yml opts w).2 = none ∧ (New env yml opts w).1.files = w.files := by
    intro h
    rw [hflat]
    exact rangeRegenerates_all_missing env (configure pkgs opts) _ w h
  rw [hsplit] at hflat
  rcases hp : rangeRegenerates env (configure pkgs opts) w pre with ⟨w1, _ | err⟩
  · have hmiss1 : w1.files (resolved env (configure pkgs opts) e) = Node.missing := by
      have hs := rangeRegenerates_skeleton env (configure pkgs opts)
        (resolved env (configure pkgs opts) e) pre w
      rw [hp] at hs
      simp only at hs
      have hm : w.files (resolved env (configure pkgs opts) e) = Node.missing := hmiss
      rw [hm] at hs
      exact (Node.skeleton_missing _).mp hs
    have hb := body_missing env (configure pkgs opts) w1 e hmiss1
    rw [rangeRegenerates_append_ok env _ pre w w1 _ hp,
      rangeRegenerates_cons_ok env _ w1 _ e post hb] at hflat
    rw [rangeRegenerates_append_ok env _ pre w w1 _ hp] at hflat2
    obtain ⟨s1, s2, s3⟩ := rangeRegenerates_sim env (configure pkgs opts) post
      { w1 with
        trace := w1.trace ++ [Event.OpenFile (resolved env (configure pkgs opts) e)],
        stderr := w1.stderr ++ ["File " ++ env.quote e.File ++ " not exist.\n"] } w1 rfl rfl
    refine ⟨?_, ?_, ?_, hstill, hall⟩
    · rw [hflat, hflat2]; exact s1
    · rw [hflat, hflat2]; exact s2
    · rw [hflat, hflat2]; exact s3
  · rw [rangeRegenerates_append_err env _ pre w w1 _ err hp] at hflat hflat2
    refine ⟨?_, ?_, ?_, hstill, hall⟩ <;> rw [hflat, hflat2]

/-- Witness of C2: `ghost.go` does not exist and `x.go` is rewritten as without it. -/
theorem New_skips_missing_file_witness :
    (New demoEnv docGhost [] demoWorld).2 = none ∧
      (New demoEnv docGhost [] demoWorld).1.files "x.go" =
        Node.file "// DONE\nfunc f()\x7b\x7d" ∧
      (New demoEnv docGhost [] demoWorld).2 = (New demoEnv docTodo [] demoWorld).2 ∧
      (New demoEnv docGhost [] demoWorld).1.files = (New demoEnv docTodo [] demoWorld).1.files ∧
      (New demoEnv docGhost [] demoWorld).1.handles =
        (New demoEnv docTodo [] demoWorld).1.handles ∧
      (New demoEnv docGhost [] demoWorld).1.files "ghost.go" = Node.missing :=
  have h := New_skips_missing_file demoEnv docGhost docTodo [] demoWorld pkgsGhost pkgsTodo []
    ⟨"ghost.go", [], [⟨"(", ""⟩]⟩ [⟨"x.go", [⟨"// TODO", "// DONE"⟩], []⟩]
    rfl rfl (by decide) (by decide) rfl rfl (by decide)
  ⟨by decide, by decide, h.1, h.2.1, h.2.2.1, h.2.2.2.1⟩

/-- C3 as stated fails: `a.go` is rewritten before the invalid pattern of the
next entry is compiled, and `New` returns the compile error. -/
theorem New_compile_error_not_atomic :
    ¬ ∀ (env : Env) (yml : String) (opts : List ConfigOption) (w : World)
        (label msg : String) (wr : Bool),
        (New env yml opts w).2 = some ⟨label, Cause.regexp msg, wr⟩ →
        (New env yml opts w).1.files = w.files := by
  intro h
  have h1 := h demoEnv docTwoFiles [] demoWorld "regexp compile" "missing closing )" true
    (by decide)
  have h2 := congrFun h1 "a.go"
  revert h2
  decide

/-- C3, amended: when `New` returns an error of the regexp compiler, the error is
that of a pattern of an entry `e` whose file was opened, the entries before `e`
went through, and neither `e` nor any later entry has changed a file: every file
holds what the entries before `e` left, and a file that no entry before `e`
names holds what it held before the run. -/
theorem New_compile_error_frame (env : Env) (yml : String) (opts : List ConfigOption)
    (w : World) (pkgs : List Package) (label msg : String) (wr : Bool)
    (hy : env.unmarshal yml = Except.ok pkgs)
    (herr : (New env yml opts w).2 = some ⟨label, Cause.regexp msg, wr⟩) :
    ∃ pre e post w1,
      entries (configure pkgs opts) = pre ++ e :: post ∧
      rangeRegenerates env (configure pkgs opts) w pre = (w1, none) ∧
      (∃ bad ∈ e.Regexps, env.compile bad.Match = Except.error msg) ∧
      (w.files (env.join (configure pkgs opts).directory e.File)).isFile = true ∧
      (New env yml opts w).1.files = w1.files ∧
      ∀ p, (∀ x ∈ pre, env.join (configure pkgs opts).directory x.File ≠ p) →
        (New env yml opts w).1.files p = w.files p := by
  have hflat := New_flat env yml opts w pkgs hy
  rcases hn : New env yml opts w with ⟨w2, r⟩
  rw [hn] at herr hflat
  simp only at herr
  subst herr
  obtain ⟨pre, e, post, w1, hsplit, hpre, hb⟩ :=
    rangeRegenerates_error_split env (configure pkgs opts) _ w w2 _ hflat.symm
  obtain ⟨hfiles, hisfile, hbad⟩ := body_regexp_error env (configure pkgs opts) w1 w2 e _ _ _ hb
  refine ⟨pre, e, post, w1, hsplit, hpre, hbad, ?_, hfiles, ?_⟩
  · have hs := rangeRegenerates_skeleton env (configure pkgs opts)
      (resolved env (configure pkgs opts) e) pre w
    rw [hpre] at hs
    simp only at hs
    show (w.files (resolved env (configure pkgs opts) e)).isFile = true
    rw [← Node.isFile_skeleton, ← hs, Node.isFile_skeleton]
    exact hisfile
  · intro p hp
    have ho := rangeRegenerates_files_other env (configure pkgs opts) p pre w hp
    rw [hpre] at ho
    simp only at ho
    show w2.files p = w.files p
    rw [hfiles]
    exact ho

/-- Witness of C3, amended: the run on `a.go` and then `x.go` with the pattern `(`. -/
theorem New_compile_error_frame_witness :
    ∃ pre e post w1,
      entries (configure pkgsTwoFiles []) = pre ++ e :: post ∧
      rangeRegenerates demoEnv (configure pkgsTwoFiles []) demoWorld pre = (w1, none) ∧
      (∃ bad ∈ e.Regexps, demoEnv.compile bad.Match = Except.error "missing closing )") ∧
      (demoWorld.files (demoEnv.join (configure pkgsTwoFiles []).directory e.File)).isFile =
        true ∧
      (New demoEnv docTwoFiles [] demoWorld).1.files = w1.files ∧
      ∀ p, (∀ x ∈ pre, demoEnv.join (configure pkgsTwoFiles []).directory x.File ≠ p) →
        (New demoEnv docTwoFiles [] demoWorld).1.files p = demoWorld.files p :=
  New_compile_error_frame demoEnv docTwoFiles [] demoWorld pkgsTwoFiles
    "regexp compile" "missing closing )" true rfl (by decide)

/-- C6, the code at a failing input: `locked/x.go` exists but cannot be opened,
and `New` reports the failure of `os.OpenFile` under the label of the regexp
compiler, the label it also gives to a pattern that does not compile. -/
theorem New_open_failure_label :
    (New demoEnv docTodo [WithDirectory "locked"] demoWorld).2 =
        some ⟨"regexp compile", Cause.os "open locked/x.go: permission denied", true⟩ ∧
      (New demoEnv docBadRegexp [] demoWorld).2 =
        some ⟨"regexp compile", Cause.regexp "missing closing )", true⟩ := by
  decide

/-- C8 as stated fails: after a compile failure the handle on `x.go` is still
open, even when `regenerate.Pipe` closes the file it is handed. -/
theorem New_leaves_handle_open :
    ¬ ∀ (env : Env) (yml : String) (opts : List ConfigOption) (w : World),
        (New env yml opts w).1.handles = w.handles := by
  intro h
  have h1 := h closingEnv docBadRegexp [] demoWorld
  revert h1
  decide

/-- C8, amended: `New` itself closes no handle. When `New` returns nil, the
handles open before the call are still open, followed in order by handles of
the entries whose path names a file that opens: all of them when
`regenerate.Pipe` leaves the file it is handed open, and in any case no other
handle. When `New` returns an error, the same holds of the entries before the
first failing entry `e`, followed by the handle of `e` if it was opened; after
a compile failure the handle of `e` is open whatever `regenerate.Pipe` does. -/
theorem New_handles (env : Env) (yml : String) (opts : List ConfigOption) (w : World)
    (pkgs : List Package) (hy : env.unmarshal yml = Except.ok pkgs) :
    ((New env yml opts w).2 = none →
      ∃ H, (New env yml opts w).1.handles = w.handles ++ H ∧
        H.Sublist (((entries (configure pkgs opts)).filter
          (fun x => (w.files (env.join (configure pkgs opts).directory x.File)).isFile)).map
          (fun x => env.join (configure pkgs opts).directory x.File)) ∧
        ((∀ c s, env.pipeCloses c s = false) →
          H = ((entries (configure pkgs opts)).filter
            (fun x => (w.files (env.join (configure pkgs opts).directory x.File)).isFile)).map
            (fun x => env.join (configure pkgs opts).directory x.File))) ∧
    (∀ err, (New env yml opts w).2 = some err →
      ∃ pre e post H keep,
        entries (configure pkgs opts) = pre ++ e :: post ∧
        (rangeRegenerates env (configure pkgs opts) w pre).2 = none ∧
        (body env (configure pkgs opts)
          (rangeRegenerates env (configure pkgs opts) w pre).1 e).2 = some err ∧
        (New env yml opts w).1.handles = w.handles ++ H ++ keep ∧
        H.Sublist ((pre.filter
          (fun x => (w.files (env.join (configure pkgs opts).directory x.File)).isFile)).map
          (fun x => env.join (configure pkgs opts).directory x.File)) ∧
        keep.Sublist [env.join (configure pkgs opts).directory e.File] ∧
        ((∃ m, err.cause = Cause.regexp m) →
          keep = [env.join (configure pkgs opts).directory e.File]) ∧
        ((∀ c s, env.pipeCloses c s = false) →
          H = (pre.filter
            (fun x => (w.files (env.join (configure pkgs opts).directory x.File)).isFile)).map
            (fun x => env.join (configure pkgs opts).directory x.File) ∧
          keep = if (w.files (env.join (configure pkgs opts).directory e.File)).isFile
            then [env.join (configure pkgs opts).directory e.File] else [])) := by
  have hflat := New_flat env yml opts w pkgs hy
  constructor
  · intro hnil
    obtain ⟨k, tr, _, _, _, ⟨H, hH, hsub, hall⟩, hn⟩ :=
      rangeRegenerates_summary env (configure pkgs opts) (entries (configure pkgs opts)) w
    rw [← hflat] at hH hn
    have hk := hn hnil
    subst hk
    rw [List.take_length] at hsub hall
    exact ⟨H, hH, hsub, hall⟩
  · intro err herr
    rcases hn : New env yml opts w with ⟨w2, r⟩
    rw [hn] at herr hflat
    simp only at herr
    subst herr
    obtain ⟨pre, e, post, w1, hsplit, hpre, hb⟩ :=
      rangeRegenerates_error_split env (configure pkgs opts) _ w w2 _ hflat.symm
    obtain ⟨k, tr, _, _, _, ⟨H, hH, hsub, hall⟩, hk⟩ :=
      rangeRegenerates_summary env (configure pkgs opts) pre w
    rw [hpre] at hH hk
    simp only at hH hk
    have hkl : k = pre.length := hk trivial
    subst hkl
    rw [List.take_length] at hsub hall
    obtain ⟨keep, hkeep, hksub, hkall, hkre⟩ := body_handles env (configure pkgs opts) w1 e
    rw [hb] at hkeep hkre
    simp only at hkeep hkre
    have hkind : (w1.files (resolved env (configure pkgs opts) e)).isFile =
        (w.files (resolved env (configure pkgs opts) e)).isFile := by
      have hs := rangeRegenerates_skeleton env (configure pkgs opts)
        (resolved env (configure pkgs opts) e) pre w
      rw [hpre] at hs
      simp only at hs
      rw [← Node.isFile_skeleton, hs, Node.isFile_skeleton]
    refine ⟨pre, e, post, H, keep, hsplit, by rw [hpre], by rw [hpre, hb], ?_, hsub, ?_, ?_, ?_⟩
    · show w2.handles = w.handles ++ H ++ keep
      rw [hkeep, hH]
    · by_cases hf : (w1.files (resolved env (configure pkgs opts) e)).isFile = true
      · rw [if_pos hf] at hksub
        exact hksub
      · rw [if_neg hf] at hksub
        exact hksub.trans (List.nil_sublist _)
    · rintro ⟨m, hm⟩
      rcases err with ⟨label, cause, wr⟩
      simp only at hm
      subst hm
      exact hkre label m wr rfl
    · intro hno
      refine ⟨hall hno, ?_⟩
      rw [hkall hno, hkind]
      rfl

/-- Witness of C8, amended: the handle on `a.go`, then the handle on `x.go`,
whose pattern `(` stops the run, are open when `New` returns. -/
theorem New_handles_witness :
    (New demoEnv docTwoFiles [] demoWorld).2 =
        some ⟨"regexp compile", Cause.regexp "missing closing )", true⟩ ∧
      (New demoEnv docTwoFiles [] demoWorld).1.handles = ["a.go", "x.go"] ∧
      ∃ pre e post H keep,
        entries (configure pkgsTwoFiles []) = pre ++ e :: post ∧
        (rangeRegenerates demoEnv (configure pkgsTwoFiles []) demoWorld pre).2 = none ∧
        (body demoEnv (configure pkgsTwoFiles [])
          (rangeRegenerates demoEnv (configure pkgsTwoFiles []) demoWorld pre).1 e).2 =
          some ⟨"regexp compile", Cause.regexp "missing closing )", true⟩ ∧
        (New demoEnv docTwoFiles [] demoWorld).1.handles = demoWorld.handles ++ H ++ keep ∧
        keep = [demoEnv.join (configure pkgsTwoFiles []).directory e.File] :=
  have h := (New_handles demoEnv docTwoFiles [] demoWorld pkgsTwoFiles rfl).2
    ⟨"regexp compile", Cause.regexp "missing closing )", true⟩ (by decide)
  ⟨by decide, by decide,
    h.elim fun pre h1 => h1.elim fun e h2 => h2.elim fun post h3 => h3.elim fun H h4 =>
      h4.elim fun keep h5 =>
        ⟨pre, e, post, H, keep, h5.1, h5.2.1, h5.2.2.1, h5.2.2.2.1,
          h5.2.2.2.2.2.2.1 ⟨"missing closing )", rfl⟩⟩⟩

/-- C9 as stated fails: the only entry holds a pattern that does not compile,
its file does not exist, and `New` returns nil. -/
theorem New_invalid_regexp_skipped :
    ¬ ∀ (env : Env) (yml : String) (opts : List ConfigOption) (w : World)
        (pkgs : List Package) (e : Replace) (bad : Regexp) (msg : String),
        env.unmarshal yml = Except.ok pkgs →
        e ∈ entries (configure pkgs opts) → bad ∈ e.Regexps →
        env.compile bad.Match = Except.error msg →
        (New env yml opts w).2 ≠ none := by
  intro h
  exact h demoEnv docBadRegexp [] emptyWorld pkgsBadRegexp ⟨"x.go", [], [⟨"(", ""⟩]⟩ ⟨"(", ""⟩
    "missing closing )" rfl (by decide) (by decide) rfl (by decide)

/-- C9, amended: when the document parses and an entry whose resolved path is
not missing holds a pattern that does not compile, `New` returns a non-nil
error. -/
theorem New_invalid_regexp_fails (env : Env) (yml : String) (opts : List ConfigOption)
    (w : World) (pkgs : List Package) (e : Replace) (bad : Regexp) (msg : String)
    (hy : env.unmarshal yml = Except.ok pkgs)
    (he : e ∈ entries (configure pkgs opts)) (hbad : bad ∈ e.Regexps)
    (hc : env.compile bad.Match = Except.error msg)
    (hexists : w.files (env.join (configure pkgs opts).directory e.File) ≠ Node.missing) :
    (New env yml opts w).2 ≠ none := by
  obtain ⟨pre, post, hsplit⟩ := List.append_of_mem he
  rw [New_flat env yml opts w pkgs hy, hsplit]
  rcases hp : rangeRegenerates env (configure pkgs opts) w pre with ⟨w1, _ | err⟩
  · rw [rangeRegenerates_append_ok env _ pre w w1 _ hp]
    have hs := rangeRegenerates_skeleton env (configure pkgs opts)
      (resolved env (configure pkgs opts) e) pre w
    rw [hp] at hs
    simp only at hs
    cases hf : w1.files (resolved env (configure pkgs opts) e) with
    | missing =>
      rw [hf] at hs
      exact absurd ((Node.skeleton_missing _).mp hs.symm) hexists
    | unopenable m =>
      rw [rangeRegenerates_cons_err env _ w1 _ e post _
        (body_unopenable env (configure pkgs opts) w1 e m hf)]
      simp
    | file content =>
      obtain ⟨m, hm⟩ := rangeRegexps_error_of_mem env bad msg hc e.Regexps (stringSteps e)
        (w1.trace ++ [Event.OpenFile (resolved env (configure pkgs opts) e)]) hbad
      rcases hr : rangeRegexps env e.Regexps (stringSteps e)
        (w1.trace ++ [Event.OpenFile (resolved env (configure pkgs opts) e)]) with ⟨tr, r⟩
      rw [hr] at hm
      simp only at hm
      subst hm
      rw [rangeRegenerates_cons_err env _ w1 _ e post _
        (body_compile_error env (configure pkgs opts) w1 e content m tr hf hr)]
      simp
  · rw [rangeRegenerates_append_err env _ pre w w1 _ err hp]
    simp

/-- Witness of C9, amended: `x.go` exists and its entry holds the pattern `(`. -/
theorem New_invalid_regexp_fails_witness :
    (New demoEnv docBadRegexp [] demoWorld).2 ≠ none :=
  New_invalid_regexp_fails demoEnv docBadRegexp [] demoWorld pkgsBadRegexp
    ⟨"x.go", [], [⟨"(", ""⟩]⟩ ⟨"(", ""⟩ "missing closing )" rfl (by decide) (by decide) rfl
    (by decide)

theorem applyOptions_calls :
    ∀ (calls : List OptionCall) (cfg : Configuration),
      (applyOptions cfg (calls.map OptionCall.option)).Packages = cfg.Packages ∧
        (applyOptions cfg (calls.map OptionCall.option)).directory =
          ((calls.filterMap OptionCall.dir?).getLast?).getD cfg.directory := by
  intro calls
  induction calls with
  | nil => intro cfg; exact ⟨rfl, rfl⟩
  | cons c rest ih =>
    intro cfg
    have h := ih (c.option cfg)
    simp only [applyOptions, List.map_cons, List.foldl_cons] at h ⊢
    cases c with
    | directory dir =>
      refine ⟨h.1, ?_⟩
      rw [h.2]
      simp [OptionCall.option, WithDirectory, OptionCall.dir?, List.getLast?_cons]
    | gofmt o =>
      refine ⟨h.1, ?_⟩
      rw [h.2]
      simp [OptionCall.option, WithGofmt, OptionCall.dir?]

/-- C7: for every list of options built with `WithDirectory` and `WithGofmt`,
the configuration `New` works with has the parsed packages and the directory of
the last `WithDirectory` of the list (the empty string without one), and the
paths `New` opens are, in order, the join of that one directory with the
declared file name of each entry it processes, for every file of every package.
`WithDirectory` changes the directory only and `WithGofmt` the formatter only. -/
theorem New_opens_joined_paths (env : Env) (yml : String) (calls : List OptionCall)
    (w : World) (pkgs : List Package) (hy : env.unmarshal yml = Except.ok pkgs) :
    (configure pkgs (calls.map OptionCall.option)).Packages = pkgs ∧
      (configure pkgs (calls.map OptionCall.option)).directory = lastDirectory calls ∧
      (∃ k tr, k ≤ (pkgs.flatMap Package.Regenerates).length ∧
        (New env yml (calls.map OptionCall.option) w).1.trace = w.trace ++ tr ∧
        opened tr = ((pkgs.flatMap Package.Regenerates).take k).map
          (fun e => env.join (lastDirectory calls) e.File) ∧
        ((New env yml (calls.map OptionCall.option) w).2 = none →
          k = (pkgs.flatMap Package.Regenerates).length)) ∧
      (∀ dir c, (WithDirectory dir c).directory = dir ∧
        (WithDirectory dir c).Packages = c.Packages ∧ (WithDirectory dir c).gofmt = c.gofmt) ∧
      (∀ o c, (WithGofmt o c).gofmt = o ∧
        (WithGofmt o c).Packages = c.Packages ∧ (WithGofmt o c).directory = c.directory) := by
  obtain ⟨hp, hd⟩ := applyOptions_calls calls { Packages := pkgs, directory := "", gofmt := none }
  have hp2 : (configure pkgs (calls.map OptionCall.option)).Packages = pkgs := hp
  have hd2 : (configure pkgs (calls.map OptionCall.option)).directory = lastDirectory calls := hd
  refine ⟨hp2, hd2, ?_, fun _ _ => ⟨rfl, rfl, rfl⟩, fun _ _ => ⟨rfl, rfl, rfl⟩⟩
  obtain ⟨k, tr, hk, htr, hop, _, hn⟩ :=
    rangeRegenerates_summary env (configure pkgs (calls.map OptionCall.option))
      (entries (configure pkgs (calls.map OptionCall.option))) w
  rw [← New_flat env yml _ w pkgs hy] at htr hn
  have hent : entries (configure pkgs (calls.map OptionCall.option)) =
      pkgs.flatMap Package.Regenerates := by
    simp only [entries, hp2]
  have hres : resolved env (configure pkgs (calls.map OptionCall.option)) =
      fun e => env.join (lastDirectory calls) e.File := by
    funext e
    simp only [resolved, hd2]
  rw [hent] at hk hop hn
  rw [hres] at hop
  exact ⟨k, tr, hk, htr, hop, hn⟩

/-- Witness of C7: the second `WithDirectory` wins and `locked/x.go` is opened. -/
theorem New_opens_joined_paths_witness :
    lastDirectory [OptionCall.directory "nowhere", OptionCall.gofmt none,
        OptionCall.directory "locked"] = "locked" ∧
      opened (New demoEnv docTodo ([OptionCall.directory "nowhere", OptionCall.gofmt none,
        OptionCall.directory "locked"].map OptionCall.option) demoWorld).1.trace =
        ["locked/x.go"] ∧
      (configure pkgsTodo ([OptionCall.directory "nowhere", OptionCall.gofmt none,
        OptionCall.directory "locked"].map OptionCall.option)).directory =
        lastDirectory [OptionCall.directory "nowhere", OptionCall.gofmt none,
          OptionCall.directory "locked"] :=
  ⟨by decide, by decide,
    (New_opens_joined_paths demoEnv docTodo [OptionCall.directory "nowhere",
      OptionCall.gofmt none, OptionCall.directory "locked"] demoWorld pkgsTodo rfl).2.1⟩

/-- The errors of the body: an open failure other than not-exist, a compile
failure, or a pipe failure. -/
theorem body_error_kinds (env : Env) (cfg : Configuration) (w : World) (e : Replace)
    (err : GoError) (h : (body env cfg w e).2 = some err) :
    (∃ m, w.files (resolved env cfg e) = Node.unopenable m ∧
        err = ⟨"regexp compile", Cause.os m, true⟩) ∨
      (∃ m, (∃ bad ∈ e.Regexps, env.compile bad.Match = Except.error m) ∧
        err = ⟨"regexp compile", Cause.regexp m, true⟩) ∨
      (∃ m, err = ⟨"regenerate pipe", Cause.pipe m, false⟩) := by
  rcases body_cases env cfg w e with ⟨hf, hb⟩ | ⟨m, hf, hb⟩ | ⟨content, m, k, hf, hbad, hb⟩ |
    ⟨content, steps, k, hf, hb⟩
  · rw [hb] at h; cases h
  · rw [hb] at h
    simp only [Option.some.injEq] at h
    exact Or.inl ⟨m, hf, h.symm⟩
  · rw [hb] at h
    simp only [Option.some.injEq] at h
    exact Or.inr (Or.inl ⟨m, hbad, h.symm⟩)
  · rw [hb] at h
    rcases hp : (Pipe env w.files (resolved env cfg e) content (steps ++ gofmtSteps cfg)).2 with
      _ | m
    · rw [hp] at h; cases h
    · rw [hp] at h
      simp only [Option.map_some', Option.some.injEq] at h
      exact Or.inr (Or.inr ⟨m, h.symm⟩)

/-- C10: the entries are processed in flattened declaration order and the first
fatal failure stops the run. When the entries before `e` go through and the body
fails on `e` with `err` (an open failure other than not-exist, a compile failure
or a pipe failure), `New` returns `err` in the state the body left: the paths
opened are those of the entries up to `e`, in order, every earlier entry whose
file exists has been piped, and a file that none of these entries names keeps
its content. When the document does not parse, `New` returns the parse error
in the state it was called in, whatever the options. -/
theorem New_stops_at_first_failure (env : Env) (yml : String) (opts : List ConfigOption)
    (w : World) (pkgs : List Package) (pre : List Replace) (e : Replace)
    (post : List Replace) (err : GoError)
    (hy : env.unmarshal yml = Except.ok pkgs)
    (hsplit : entries (configure pkgs opts) = pre ++ e :: post)
    (hpre : (rangeRegenerates env (configure pkgs opts) w pre).2 = none)
    (hfail : (body env (configure pkgs opts)
      (rangeRegenerates env (configure pkgs opts) w pre).1 e).2 = some err) :
    (New env yml opts w).2 = some err ∧
      (New env yml opts w).1 =
        (body env (configure pkgs opts)
          (rangeRegenerates env (configure pkgs opts) w pre).1 e).1 ∧
      ((∃ m, err = ⟨"regexp compile", Cause.os m, true⟩) ∨
        (∃ m, err = ⟨"regexp compile", Cause.regexp m, true⟩) ∨
        (∃ m, err = ⟨"regenerate pipe", Cause.pipe m, false⟩)) ∧
      (∃ tr, (New env yml opts w).1.trace = w.trace ++ tr ∧
        opened tr =
          (pre ++ [e]).map (fun x => env.join (configure pkgs opts).directory x.File) ∧
        ∀ x ∈ pre, (w.files (env.join (configure pkgs opts).directory x.File)).isFile = true →
          ∃ steps, Event.Pipe (env.join (configure pkgs opts).directory x.File) steps ∈ tr) ∧
      (∀ p, (∀ x ∈ pre ++ [e], env.join (configure pkgs opts).directory x.File ≠ p) →
        (New env yml opts w).1.files p = w.files p) ∧
      (∀ yml2 opts2 w2 m, env.unmarshal yml2 = Except.error m →
        New env yml2 opts2 w2 = (w2, some ⟨"unmarshal yaml", Cause.yaml m, true⟩)) := by
  rcases hp : rangeRegenerates env (configure pkgs opts) w pre with ⟨w1, r⟩
  rw [hp] at hpre hfail
  simp only at hpre hfail
  subst hpre
  rcases hb : body env (configure pkgs opts) w1 e with ⟨w2, r2⟩
  rw [hb] at hfail
  simp only at hfail
  subst hfail
  have hnew : New env yml opts w = (w2, some err) := by
    rw [New_reach env yml opts w w1 pkgs pre e post hy hsplit hp]
    exact rangeRegenerates_cons_err env _ w1 w2 e post err hb
  have hkinds := body_error_kinds env (configure pkgs opts) w1 e err (by rw [hb])
  obtain ⟨k, trp, _, htrp, hopp, _, hk⟩ :=
    rangeRegenerates_summary env (configure pkgs opts) pre w
  rw [hp] at htrp hk
  simp only at htrp hk
  have hkl : k = pre.length := hk trivial
  subst hkl
  rw [List.take_length] at hopp
  obtain ⟨tre, htre, hope⟩ := body_trace env (configure pkgs opts) w1 e
  rw [hb] at htre
  simp only at htre
  rw [hnew]
  refine ⟨rfl, rfl, ?_, ?_, ?_, ?_⟩
  · rcases hkinds with ⟨m, _, h⟩ | ⟨m, _, h⟩ | ⟨m, h⟩
    · exact Or.inl ⟨m, h⟩
    · exact Or.inr (Or.inl ⟨m, h⟩)
    · exact Or.inr (Or.inr ⟨m, h⟩)
  · refine ⟨trp ++ Event.OpenFile (resolved env (configure pkgs opts) e) :: tre, ?_, ?_, ?_⟩
    · show w2.trace = _
      rw [htre, htrp]
      simp
    · rw [opened_append, hopp]
      simp [opened, hope, resolved]
    · intro x hx hfile
      obtain ⟨tr, steps, htr, hmem⟩ :=
        rangeRegenerates_piped env (configure pkgs opts) pre w (by rw [hp]) x hx hfile
      rw [hp] at htr
      simp only at htr
      rw [htrp] at htr
      have heq : trp = tr := List.append_cancel_left htr
      subst heq
      exact ⟨steps, List.mem_append_left _ hmem⟩
  · intro p hne
    have h1 := rangeRegenerates_files_other env (configure pkgs opts) p pre w
      (fun x hx => hne x (List.mem_append_left _ hx))
    have h2 := body_files_other env (configure pkgs opts) w1 e p
      (fun hpe => hne e (by simp) hpe.symm)
    rw [hp] at h1
    rw [hb] at h2
    simp only at h1 h2
    show w2.files p = w.files p
    rw [h2, h1]
  · intro yml2 opts2 w2 m hm
    simp [New, hm]

/-- Witness of C10: `a.go` is piped, then the pattern `(` of the entry on `x.go`
stops the run. -/
theorem New_stops_at_first_failure_witness :
    (New demoEnv docTwoFiles [] demoWorld).2 =
        some ⟨"regexp compile", Cause.regexp "missing closing )", true⟩ ∧
      (New demoEnv docTwoFiles [] demoWorld).1.trace =
        [Event.OpenFile "a.go", Event.Pipe "a.go" [Step.ReplaceString "a" "b"],
          Event.OpenFile "x.go", Event.Compile "("] ∧
      (∀ p, (∀ x ∈ [(⟨"a.go", [⟨"a", "b"⟩], []⟩ : Replace)] ++ [⟨"x.go", [], [⟨"(", ""⟩]⟩],
          demoEnv.join (configure pkgsTwoFiles []).directory x.File ≠ p) →
        (New demoEnv docTwoFiles [] demoWorld).1.files p = demoWorld.files p) :=
  have h := New_stops_at_first_failure demoEnv docTwoFiles [] demoWorld pkgsTwoFiles
    [⟨"a.go", [⟨"a", "b"⟩], []⟩] ⟨"x.go", [], [⟨"(", ""⟩]⟩ []
    ⟨"regexp compile", Cause.regexp "missing closing )", true⟩ rfl (by decide) (by decide)
    (by decide)
  ⟨h.1, by decide, h.2.2.2.2.1⟩

end sqlcgrep
